import Mathlib

/-!
Verification of the file-deduplication tool's core against its design notes.

The Rust sources are embedded shallowly:
* a path is its string of characters (`List Char`);
* the filesystem is an explicit state (`FSState`): the regular files with
  their sizes, the directories, and oracles naming the paths on which each
  fallible syscall (`remove_file`, `rename`, `hard_link`/`symlink`,
  `create_dir_all`) returns an error — these model the `Err` branches the
  source matches on;
* a Rust function returning `anyhow::Result<T>` becomes a Lean function
  into `Except String (FSState × T)`: the `?`-propagated errors become
  `Except.error`, the handled per-file failures become ordinary values
  carrying `success := false`.
-/

/-! ## Decimal rendering of the collision counter -/

/-- Fuel-driven most-significant-digit-first decimal digits of a natural
number, mirroring the counter formatting in the move collision loop. -/
def natDigitsAux : Nat → Nat → List Char
  | 0, _ => []
  | fuel + 1, n =>
    if n < 10 then [Nat.digitChar n]
    else natDigitsAux fuel (n / 10) ++ [Nat.digitChar (n % 10)]

/-- Decimal digits of `n`, most significant first. -/
def natDigits (n : Nat) : List Char := natDigitsAux (n + 1) n

/-- Read decimal digits back into a number. -/
def parseDigits (l : List Char) : Nat :=
  l.foldl (fun a c => a * 10 + (c.toNat - 48)) 0

theorem natDigitsAux_fuel : ∀ f1 f2 n, n < f1 → n < f2 →
    natDigitsAux f1 n = natDigitsAux f2 n := by
  intro f1
  induction f1 using Nat.strong_induction_on with
  | _ f1 ih =>
    intro f2 n h1 h2
    obtain ⟨f1', rfl⟩ : ∃ k, f1 = k + 1 := ⟨f1 - 1, by omega⟩
    obtain ⟨f2', rfl⟩ : ∃ k, f2 = k + 1 := ⟨f2 - 1, by omega⟩
    simp only [natDigitsAux]
    by_cases hn : n < 10
    · simp [hn]
    · simp only [hn, if_false]
      have hdiv : n / 10 < n := Nat.div_lt_self (by omega) (by omega)
      rw [ih f1' (by omega) f2' (n / 10) (by omega) (by omega)]

theorem digitChar_toNat (n : Nat) (h : n < 10) : (Nat.digitChar n).toNat = 48 + n := by
  interval_cases n <;> rfl

theorem parseDigits_append_one (l : List Char) (c : Char) :
    parseDigits (l ++ [c]) = parseDigits l * 10 + (c.toNat - 48) := by
  simp [parseDigits, List.foldl_append]

theorem parseDigits_natDigits : ∀ n, parseDigits (natDigits n) = n := by
  intro n
  induction n using Nat.strong_induction_on with
  | _ n ih =>
    by_cases hn : n < 10
    · simp only [natDigits, natDigitsAux, hn, if_true, parseDigits, List.foldl]
      rw [digitChar_toNat n hn]
      omega
    · have hdiv : n / 10 < n := Nat.div_lt_self (by omega) (by omega)
      have hstep : natDigits n = natDigits (n / 10) ++ [Nat.digitChar (n % 10)] := by
        show natDigitsAux (n + 1) n = _
        simp only [natDigitsAux, hn, if_false]
        rw [natDigitsAux_fuel n (n / 10 + 1) (n / 10) (by omega) (by omega)]
        rfl
      rw [hstep, parseDigits_append_one, ih (n / 10) hdiv,
        digitChar_toNat (n % 10) (by omega)]
      omega

theorem natDigits_inj {m n : Nat} (h : natDigits m = natDigits n) : m = n := by
  have hm := parseDigits_natDigits m
  have hn := parseDigits_natDigits n
  rw [h] at hm
  omega

/-! ## Path strings

A path is its character string. `splitLastOn c l` splits `l` at the last
occurrence of `c`; it backs `Path::file_name` (split on `'/'`) and
`Path::file_stem` / `Path::extension` (split on `'.'`). -/

/-- Split at the last occurrence of `c`: `some (before, after)`, or `none`
when `c` does not occur. -/
def splitLastOn (c : Char) : List Char → Option (List Char × List Char)
  | [] => none
  | x :: xs =>
    match splitLastOn c xs with
    | some (b, a) => some (x :: b, a)
    | none => if x = c then some ([], xs) else none

/-- `Path::file_name`: the component after the last `'/'` (the whole path
when there is no `'/'`). -/
def fileName (p : List Char) : List Char :=
  match splitLastOn '/' p with
  | some (_, after) => after
  | none => p

/-- `Path::file_stem` and `Path::extension` of a file name, as one split:
the name splits at its last `'.'`, except that a name whose only `'.'` is
the leading one (a hidden file) has no extension. An absent extension is
the empty string (Rust's `unwrap_or_default` conflates `None` and
`Some("")` before the emptiness test, so nothing is lost). -/
def fileStemExt (name : List Char) : List Char × List Char :=
  match name with
  | [] => ([], [])
  | h :: t =>
    if h = '.' then
      match splitLastOn '.' t with
      | none => (name, [])
      | some (b, a) => ('.' :: b, a)
    else
      match splitLastOn '.' name with
      | none => (name, [])
      | some (b, a) => (b, a)

/-- `target_dir.join(name)`. -/
def joinPath (dir name : List Char) : List Char := dir ++ '/' :: name

/-- The `counter`-suffixed file name the collision loop formats:
`format!("{}_{}", stem, counter)` or `format!("{}_{}.{}", stem, counter, ext)`. -/
def candName (stem ext : List Char) (k : Nat) : List Char :=
  if ext = [] then stem ++ '_' :: natDigits k
  else stem ++ '_' :: natDigits k ++ '.' :: ext

/-- The full candidate destination path for counter `k`. -/
def candPath (dir stem ext : List Char) (k : Nat) : List Char :=
  joinPath dir (candName stem ext k)

theorem candName_inj {stem ext : List Char} {j k : Nat}
    (h : candName stem ext j = candName stem ext k) : j = k := by
  unfold candName at h
  by_cases he : ext = []
  · simp only [he, if_true] at h
    exact natDigits_inj (List.cons.inj (List.append_cancel_left h)).2
  · simp only [he, if_false] at h
    have h2 := List.append_cancel_left (List.append_cancel_right h)
    exact natDigits_inj (List.cons.inj h2).2

theorem candPath_inj {dir stem ext : List Char} {j k : Nat}
    (h : candPath dir stem ext j = candPath dir stem ext k) : j = k := by
  unfold candPath joinPath at h
  exact candName_inj (List.cons.inj (List.append_cancel_left h)).2

/-! ## The filesystem state -/

/-- The filesystem as the actions see it: the regular files with their byte
sizes, the directories, and one oracle per fallible syscall listing the
paths on which that call returns `Err`. The oracles model the error
branches of `fs::remove_file`, `fs::rename`, `fs::hard_link` /
`symlink`, and `fs::create_dir_all` that the source matches on. -/
structure FSState where
  files : List (List Char × Nat)
  dirs : List (List Char)
  failRemove : List (List Char)
  failRename : List (List Char)
  failLink : List (List Char)
  failCreateDir : List (List Char)
deriving Repr, DecidableEq

/-- `fs::metadata(path).len()`: the size of the file at `p`, or `none` when
no such file exists (the metadata call errors). -/
def lookupSize : List (List Char × Nat) → List Char → Option Nat
  | [], _ => none
  | (q, s) :: rest, p => if q = p then some s else lookupSize rest p

/-- `fs::remove_file`'s effect: drop the entry at `p`. -/
def removeEntry : List (List Char × Nat) → List Char → List (List Char × Nat)
  | [], _ => []
  | (q, s) :: rest, p =>
    if q = p then removeEntry rest p else (q, s) :: removeEntry rest p

/-- `Path::exists`: a file or a directory sits at `p`. -/
def pathExists (fs : FSState) (p : List Char) : Bool :=
  (lookupSize fs.files p).isSome || fs.dirs.contains p

/-- Every path at which some node exists. -/
def allPaths (fs : FSState) : List (List Char) :=
  fs.files.map Prod.fst ++ fs.dirs

/-- `fs::create_dir_all(dir)`: `none` on failure, otherwise the state with
the directory present. -/
def createDirAll (fs : FSState) (dir : List Char) : Option FSState :=
  if fs.failCreateDir.contains dir then none
  else some { fs with dirs := dir :: fs.dirs }

theorem lookupSize_removeEntry (files : List (List Char × Nat)) (p q : List Char) :
    lookupSize (removeEntry files p) q =
      if q = p then none else lookupSize files q := by
  induction files with
  | nil => simp [removeEntry, lookupSize]
  | cons e rest ih =>
    obtain ⟨r, s⟩ := e
    by_cases hrp : r = p
    · rw [show removeEntry ((r, s) :: rest) p = removeEntry rest p by
        simp [removeEntry, hrp]]
      rw [ih]
      by_cases hqp : q = p
      · simp [hqp]
      · have hrq : ¬r = q := by rw [hrp]; exact fun h => hqp h.symm
        simp [lookupSize, hqp, hrq]
    · rw [show removeEntry ((r, s) :: rest) p = (r, s) :: removeEntry rest p by
        simp [removeEntry, hrp]]
      by_cases hrq : r = q
      · have hqp : ¬q = p := fun h => hrp (hrq.symm ▸ h)
        simp [lookupSize, hrq, hqp]
      · simp [lookupSize, hrq, ih]

theorem mem_keys_of_lookup_isSome :
    ∀ (files : List (List Char × Nat)) (p : List Char),
      (lookupSize files p).isSome = true → p ∈ files.map Prod.fst := by
  intro files p h
  induction files with
  | nil => simp [lookupSize] at h
  | cons e rest ih =>
    obtain ⟨q, s⟩ := e
    by_cases hq : q = p
    · simp [hq]
    · simp only [lookupSize, hq, if_false] at h
      exact List.mem_cons_of_mem _ (ih h)

theorem pathExists_of_isSome {fs : FSState} {p : List Char}
    (h : (lookupSize fs.files p).isSome = true) : pathExists fs p = true := by
  unfold pathExists
  rw [h]
  rfl

theorem mem_allPaths_of_pathExists {fs : FSState} {p : List Char}
    (h : pathExists fs p = true) : p ∈ allPaths fs := by
  unfold pathExists at h
  unfold allPaths
  rcases Bool.or_eq_true_iff.mp h with h1 | h2
  · exact List.mem_append_left _ (mem_keys_of_lookup_isSome fs.files p h1)
  · exact List.mem_append_right _ (List.mem_of_elem_eq_true h2)

/-! ## The move collision loop

`move_file` computes its destination with
`while target_path.exists() { target_path = dir.join(stem_counter.ext); counter += 1 }`.
The loop is embedded with fuel; one path of the finitely many existing
paths is always missed by the injective candidate sequence, so fuel
`(allPaths fs).length + 2` always suffices and the fuel never shows in the
functions' meaning. -/

/-- One execution of the collision `while` loop, fuel-driven. -/
def loopGo (fs : FSState) (dir stem ext : List Char) :
    List Char → Nat → Nat → Option (List Char)
  | _, _, 0 => none
  | target, counter, fuel + 1 =>
    if pathExists fs target then
      loopGo fs dir stem ext (candPath dir stem ext counter) (counter + 1) fuel
    else some target

/-- The destination path `move_file` selects for `filename` inside `dir`. -/
def findTarget (fs : FSState) (dir filename : List Char) : List Char :=
  (loopGo fs dir (fileStemExt filename).1 (fileStemExt filename).2
      (joinPath dir filename) 1 ((allPaths fs).length + 2)).getD
    (joinPath dir filename)

theorem free_cand_exists (fs : FSState) (dir stem ext : List Char) :
    ∃ k, k < (allPaths fs).length + 1 ∧
      pathExists fs (candPath dir stem ext (k + 1)) = false := by
  by_contra hall
  push_neg at hall
  have hocc : ∀ k, k < (allPaths fs).length + 1 →
      candPath dir stem ext (k + 1) ∈ allPaths fs := by
    intro k hk
    have := hall k hk
    exact mem_allPaths_of_pathExists (by
      cases hpe : pathExists fs (candPath dir stem ext (k + 1)) with
      | true => rfl
      | false => exact absurd hpe this)
  have hsub : Finset.image (fun k => candPath dir stem ext (k + 1))
      (Finset.range ((allPaths fs).length + 1)) ⊆ (allPaths fs).toFinset := by
    intro x hx
    rw [Finset.mem_image] at hx
    obtain ⟨k, hk, rfl⟩ := hx
    rw [List.mem_toFinset]
    exact hocc k (Finset.mem_range.mp hk)
  have hcard := Finset.card_le_card hsub
  rw [Finset.card_image_of_injOn (fun a _ b _ hab => by
    have := candPath_inj hab
    omega)] at hcard
  rw [Finset.card_range] at hcard
  have := (allPaths fs).toFinset_card_le
  omega

theorem loopGo_isSome (fs : FSState) (dir stem ext : List Char) :
    ∀ fuel counter target,
      (pathExists fs target = false ∨
        ∃ k, counter ≤ k ∧ k < counter + fuel ∧
          pathExists fs (candPath dir stem ext k) = false) →
      (loopGo fs dir stem ext target counter (fuel + 1)).isSome = true := by
  intro fuel
  induction fuel with
  | zero =>
    intro counter target h
    rcases h with h | ⟨k, h1, h2, _⟩
    · simp [loopGo, h]
    · omega
  | succ fuel ih =>
    intro counter target h
    by_cases ht : pathExists fs target = true
    · have hrec : (loopGo fs dir stem ext (candPath dir stem ext counter)
          (counter + 1) (fuel + 1)).isSome = true := by
        apply ih
        rcases h with h | ⟨k, h1, h2, h3⟩
        · rw [ht] at h; exact absurd h (by simp)
        · by_cases hk : k = counter
          · exact Or.inl (hk ▸ h3)
          · exact Or.inr ⟨k, by omega, by omega, h3⟩
      simpa [loopGo, ht] using hrec
    · simp [loopGo, Bool.not_eq_true _ ▸ ht]

theorem loopGo_sound (fs : FSState) (dir stem ext : List Char) :
    ∀ fuel counter target r,
      loopGo fs dir stem ext target counter fuel = some r →
      pathExists fs r = false ∧
        (r = target ∨
          (pathExists fs target = true ∧
            ∃ k, counter ≤ k ∧ r = candPath dir stem ext k ∧
              ∀ j, counter ≤ j → j < k →
                pathExists fs (candPath dir stem ext j) = true)) := by
  intro fuel
  induction fuel with
  | zero => intro counter target r h; simp [loopGo] at h
  | succ fuel ih =>
    intro counter target r h
    by_cases ht : pathExists fs target = true
    · simp only [loopGo, ht, if_true] at h
      obtain ⟨hfree, hcase⟩ := ih (counter + 1) (candPath dir stem ext counter) r h
      refine ⟨hfree, Or.inr ⟨ht, ?_⟩⟩
      rcases hcase with rfl | ⟨hcexists, k, hk1, rfl, hall⟩
      · exact ⟨counter, le_refl _, rfl, fun j h1 h2 => absurd h2 (by omega)⟩
      · refine ⟨k, by omega, rfl, fun j h1 h2 => ?_⟩
        by_cases hj : j = counter
        · exact hj ▸ hcexists
        · exact hall j (by omega) h2
    · have ht' : pathExists fs target = false := by
        cases hpe : pathExists fs target with
        | true => exact absurd hpe ht
        | false => rfl
      simp only [loopGo, ht', Bool.false_eq_true, if_false, Option.some.injEq] at h
      exact ⟨h ▸ ht', Or.inl h.symm⟩

theorem findTarget_eq_some (fs : FSState) (dir filename : List Char) :
    loopGo fs dir (fileStemExt filename).1 (fileStemExt filename).2
      (joinPath dir filename) 1 ((allPaths fs).length + 2) =
      some (findTarget fs dir filename) := by
  obtain ⟨k, hk, hfree⟩ :=
    free_cand_exists fs dir (fileStemExt filename).1 (fileStemExt filename).2
  have hsome := loopGo_isSome fs dir (fileStemExt filename).1 (fileStemExt filename).2
    ((allPaths fs).length + 1) 1 (joinPath dir filename)
    (Or.inr ⟨k + 1, by omega, by omega, hfree⟩)
  unfold findTarget
  obtain ⟨r, hr⟩ := Option.isSome_iff_exists.mp hsome
  rw [hr]
  rfl

theorem findTarget_free (fs : FSState) (dir filename : List Char) :
    pathExists fs (findTarget fs dir filename) = false :=
  (loopGo_sound fs dir (fileStemExt filename).1 (fileStemExt filename).2 _ 1
    (joinPath dir filename) _ (findTarget_eq_some fs dir filename)).1

theorem findTarget_spec (fs : FSState) (dir filename : List Char) :
    findTarget fs dir filename = joinPath dir filename ∨
      (pathExists fs (joinPath dir filename) = true ∧
        ∃ k, 1 ≤ k ∧
          findTarget fs dir filename =
            candPath dir (fileStemExt filename).1 (fileStemExt filename).2 k ∧
          ∀ j, 1 ≤ j → j < k →
            pathExists fs
              (candPath dir (fileStemExt filename).1 (fileStemExt filename).2 j) =
              true) :=
  (loopGo_sound fs dir (fileStemExt filename).1 (fileStemExt filename).2 _ 1
    (joinPath dir filename) _ (findTarget_eq_some fs dir filename)).2

theorem findTarget_of_free {fs : FSState} {dir filename : List Char}
    (h : pathExists fs (joinPath dir filename) = false) :
    findTarget fs dir filename = joinPath dir filename := by
  rcases findTarget_spec fs dir filename with h1 | ⟨h2, _⟩
  · exact h1
  · rw [h] at h2; exact absurd h2 (by simp)

/-! ## `actions.rs`: the action engine -/

/-- A single file operation (`struct FileOperation`). The error text keeps
the source's fixed message prefix; the OS error detail it interpolates is
opaque and dropped. -/
structure FileOperation where
  path : List Char
  action : String
  success : Bool
  error : Option String
  space_saved : Nat
deriving Repr, DecidableEq

/-- The running aggregate (`struct ActionResult`). -/
structure ActionResult where
  operations : List FileOperation
  total_space_saved : Nat
  total_files_processed : Nat
deriving Repr, DecidableEq

/-- `ActionResult::new`. -/
def ActionResult.new : ActionResult :=
  { operations := [], total_space_saved := 0, total_files_processed := 0 }

/-- `ActionResult::add_operation`. -/
def ActionResult.add_operation (r : ActionResult) (op : FileOperation) : ActionResult :=
  { operations := r.operations ++ [op],
    total_space_saved := r.total_space_saved + op.space_saved,
    total_files_processed := r.total_files_processed + 1 }

/-- `ActionResult::success_count`. -/
def ActionResult.success_count (r : ActionResult) : Nat :=
  (r.operations.filter (fun op => op.success)).length

/-- `ActionResult::error_count`. -/
def ActionResult.error_count (r : ActionResult) : Nat :=
  (r.operations.filter (fun op => !op.success)).length

/-- `fn delete_file(path, dry_run)`. -/
def delete_file (fs : FSState) (path : List Char) (dry_run : Bool) :
    Except String (FSState × FileOperation) :=
  match lookupSize fs.files path with
  | none => .error "Failed to get metadata"
  | some file_size =>
    if dry_run then
      .ok (fs, ⟨path, "delete", true, none, file_size⟩)
    else if fs.failRemove.contains path then
      .ok (fs, ⟨path, "delete", false, some "Failed to delete", 0⟩)
    else
      .ok ({ fs with files := removeEntry fs.files path },
        ⟨path, "delete", true, none, file_size⟩)

/-- `fn move_file(source, target_dir, dry_run)`: read the size, create the
target directory (live mode only), pick a collision-free destination, then
rename. -/
def move_file (fs : FSState) (source target_dir : List Char) (dry_run : Bool) :
    Except String (FSState × FileOperation) :=
  match lookupSize fs.files source with
  | none => .error "Failed to get metadata"
  | some file_size =>
    match (if dry_run then some fs else createDirAll fs target_dir) with
    | none => .error "Failed to create target directory"
    | some fs1 =>
      let target_path := findTarget fs1 target_dir (fileName source)
      if dry_run then
        .ok (fs1, ⟨source, "move", true, none, file_size⟩)
      else if fs1.failRename.contains source then
        .ok (fs1, ⟨source, "move", false, some "Failed to move", 0⟩)
      else
        .ok ({ fs1 with
            files := (target_path, file_size) :: removeEntry fs1.files source },
          ⟨source, "move", true, none, file_size⟩)

/-- `fn create_hardlink(original, duplicate, dry_run)`: remove the duplicate
first, then `fs::hard_link(original, duplicate)` (which also fails when the
original is gone). -/
def create_hardlink (fs : FSState) (original duplicate : List Char) (dry_run : Bool) :
    Except String (FSState × FileOperation) :=
  match lookupSize fs.files duplicate with
  | none => .error "Failed to get metadata"
  | some file_size =>
    if dry_run then
      .ok (fs, ⟨duplicate, "hardlink", true, none, file_size⟩)
    else if fs.failRemove.contains duplicate then
      .ok (fs, ⟨duplicate, "hardlink", false,
        some "Failed to remove duplicate before hardlinking", 0⟩)
    else
      let fs1 : FSState := { fs with files := removeEntry fs.files duplicate }
      match lookupSize fs1.files original with
      | none =>
        .ok (fs1, ⟨duplicate, "hardlink", false, some "Failed to create hardlink", 0⟩)
      | some osize =>
        if fs.failLink.contains duplicate then
          .ok (fs1, ⟨duplicate, "hardlink", false, some "Failed to create hardlink", 0⟩)
        else
          .ok ({ fs1 with files := (duplicate, osize) :: fs1.files },
            ⟨duplicate, "hardlink", true, none, file_size⟩)

/-- `fn create_symlink(original, duplicate, dry_run)`: remove the duplicate
first, then create the symbolic link (which succeeds even when dangling;
the link node's metadata follows the original when it exists). -/
def create_symlink (fs : FSState) (original duplicate : List Char) (dry_run : Bool) :
    Except String (FSState × FileOperation) :=
  match lookupSize fs.files duplicate with
  | none => .error "Failed to get metadata"
  | some file_size =>
    if dry_run then
      .ok (fs, ⟨duplicate, "symlink", true, none, file_size⟩)
    else if fs.failRemove.contains duplicate then
      .ok (fs, ⟨duplicate, "symlink", false,
        some "Failed to remove duplicate before symlinking", 0⟩)
    else
      let fs1 : FSState := { fs with files := removeEntry fs.files duplicate }
      if fs.failLink.contains duplicate then
        .ok (fs1, ⟨duplicate, "symlink", false, some "Failed to create symlink", 0⟩)
      else
        .ok ({ fs1 with
            files :=
              (duplicate, (lookupSize fs1.files original).getD 0) :: fs1.files },
          ⟨duplicate, "symlink", true, none, file_size⟩)

/-! ## `lib.rs`: data model and grouping -/

/-- `struct FileInfo` (path, size, hash, modification time). -/
structure FileInfo where
  path : List Char
  size : Nat
  hash : String
  modified : Nat
deriving Repr, DecidableEq

/-- `enum DedupAction`. -/
inductive DedupAction where
  | List : DedupAction
  | Delete : DedupAction
  | Move : List Char → DedupAction
  | Hardlink : DedupAction
  | Symlink : DedupAction
deriving Repr, DecidableEq

/-- `struct DedupResult`: the hash-keyed duplicate groups plus scan totals.
The `HashMap<String, Vec<FileInfo>>` is an association list; each group's
vector keeps arrival order, so the first pushed member is the group's
keeper. -/
structure DedupResult where
  duplicates : List (String × List FileInfo)
  total_files : Nat
  total_size : Nat
deriving Repr, DecidableEq

/-- `DedupResult::new`. -/
def DedupResult.new : DedupResult :=
  { duplicates := [], total_files := 0, total_size := 0 }

/-- `self.duplicates.entry(hash).or_insert_with(Vec::new).push(file)`. -/
def addToGroups (groups : List (String × List FileInfo)) (f : FileInfo) :
    List (String × List FileInfo) :=
  match groups with
  | [] => [(f.hash, [f])]
  | (h, files) :: rest =>
    if h = f.hash then (h, files ++ [f]) :: rest
    else (h, files) :: addToGroups rest f

/-- `DedupResult::add_file`. -/
def DedupResult.add_file (r : DedupResult) (f : FileInfo) : DedupResult :=
  { duplicates := addToGroups r.duplicates f,
    total_files := r.total_files + 1,
    total_size := r.total_size + f.size }

/-- `DedupResult::get_duplicate_count`. -/
def DedupResult.get_duplicate_count (r : DedupResult) : Nat :=
  (r.duplicates.map (fun g =>
    if g.2.length > 1 then g.2.length - 1 else 0)).sum

/-- `DedupResult::get_wasted_space` (`files[0].size * (files.len() - 1)`
for each group with more than one member). -/
def DedupResult.get_wasted_space (r : DedupResult) : Nat :=
  (r.duplicates.map (fun g =>
    if g.2.length > 1 then
      (match g.2 with | [] => 0 | f :: _ => f.size) * (g.2.length - 1)
    else 0)).sum

/-- `DedupResult::filter_duplicates`: retain only groups with at least two
members. -/
def DedupResult.filter_duplicates (r : DedupResult) : DedupResult :=
  { r with duplicates := r.duplicates.filter (fun g => g.2.length > 1) }

/-! ## `perform_action` and `perform_deduplication` -/

/-- The per-member dispatch inside `perform_action`'s loop body (the `List`
arm is unreachable: the loop `continue`s before dispatching it). -/
def processOne (fs : FSState) (keeper duplicate : List Char) :
    DedupAction → Bool → Except String (FSState × FileOperation)
  | .List, _ => .error "unreachable"
  | .Delete, dry_run => delete_file fs duplicate dry_run
  | .Move target_dir, dry_run => move_file fs duplicate target_dir dry_run
  | .Hardlink, dry_run => create_hardlink fs keeper duplicate dry_run
  | .Symlink, dry_run => create_symlink fs keeper duplicate dry_run

/-- `perform_action`'s loop over `duplicates.iter().skip(1)`: `List`
members are skipped (`continue`), any other action's outcome is folded in
with `add_operation`, and a `?`-propagated error aborts. -/
def runAll (keeper : List Char) (action : DedupAction) (dry_run : Bool) :
    FSState → List FileInfo → ActionResult → Except String (FSState × ActionResult)
  | fs, [], acc => .ok (fs, acc)
  | fs, d :: rest, acc =>
    match action with
    | .List => runAll keeper action dry_run fs rest acc
    | a =>
      match processOne fs keeper d.path a dry_run with
      | .error e => .error e
      | .ok (fs', op) => runAll keeper action dry_run fs' rest (acc.add_operation op)

/-- `pub fn perform_action(duplicates, action, dry_run)`: skip the first
(keeper) member and process the rest. -/
def perform_action (fs : FSState) (duplicates : List FileInfo)
    (action : DedupAction) (dry_run : Bool) :
    Except String (FSState × ActionResult) :=
  match duplicates with
  | [] => .ok (fs, ActionResult.new)
  | k :: rest => runAll k.path action dry_run fs rest ActionResult.new

/-- `for operation in result.operations { total_result.add_operation(operation) }`. -/
def mergeOps (acc : ActionResult) (ops : List FileOperation) : ActionResult :=
  ops.foldl ActionResult.add_operation acc

/-- `perform_deduplication`'s group loop: groups with more than one member
are handed to `perform_action` and the outcomes merged; a `?`-propagated
error aborts the batch. -/
def runGroups (action : DedupAction) (dry_run : Bool) :
    FSState → List (String × List FileInfo) → ActionResult →
      Except String (FSState × ActionResult)
  | fs, [], acc => .ok (fs, acc)
  | fs, (_, files) :: rest, acc =>
    if files.length > 1 then
      match perform_action fs files action dry_run with
      | .error e => .error e
      | .ok (fs', r) => runGroups action dry_run fs' rest (mergeOps acc r.operations)
    else runGroups action dry_run fs rest acc

/-- `pub fn perform_deduplication(scan_result, action, dry_run)`: `List`
returns immediately; otherwise every retained group is processed in turn. -/
def perform_deduplication (fs : FSState) (scan_result : DedupResult)
    (action : DedupAction) (dry_run : Bool) :
    Except String (FSState × ActionResult) :=
  match action with
  | .List => .ok (fs, ActionResult.new)
  | a => runGroups a dry_run fs scan_result.duplicates ActionResult.new

/-! ## `scanner.rs`: discovery filters

`should_include_file` reads the file's metadata and extension and then is a
pure predicate over (size, optional extension); it is embedded as that
predicate. The extension sets are the configured lists, lowercased by the
setters exactly as `set_include_extensions` / `set_exclude_extensions` do. -/

/-- `struct ScanConfig` (the verbosity flag is display-only and omitted). -/
structure ScanConfig where
  min_size : Nat
  max_size : Option Nat
  include_extensions : List String
  exclude_extensions : List String
deriving Repr, DecidableEq

/-- `ScanConfig::default` as `Scanner::new` builds it. -/
def ScanConfig.default : ScanConfig :=
  { min_size := 0, max_size := none,
    include_extensions := [], exclude_extensions := [] }

/-- `Scanner::set_include_extensions`: store the allow-set lowercased. -/
def set_include_extensions (cfg : ScanConfig) (extensions : List String) : ScanConfig :=
  { cfg with include_extensions := extensions.map String.toLower }

/-- `Scanner::set_exclude_extensions`: store the deny-set lowercased. -/
def set_exclude_extensions (cfg : ScanConfig) (extensions : List String) : ScanConfig :=
  { cfg with exclude_extensions := extensions.map String.toLower }

/-- `Scanner::should_include_file`, as a predicate over the file's size and
its extension (`none` when `path.extension()` is `None`). -/
def should_include_file (cfg : ScanConfig) (size : Nat) (ext : Option String) : Bool :=
  if size < cfg.min_size then false
  else if (match cfg.max_size with
      | some m => decide (size > m)
      | none => false) then false
  else
    match ext with
    | some e =>
      let ext_str := e.toLower
      if cfg.include_extensions ≠ [] ∧ ext_str ∉ cfg.include_extensions then false
      else if ext_str ∈ cfg.exclude_extensions then false
      else true
    | none => if cfg.include_extensions ≠ [] then false else true

/-! ## Per-action characterizations -/

/-- What any per-member action step guarantees about the state: the outcome
carries the member's path, the failure oracles are untouched, every other
existing file keeps its entry, and a failed outcome carries an error
message while a successful one carries none. -/
def StepInv (fs fs' : FSState) (d : List Char) (op : FileOperation) : Prop :=
  op.path = d ∧
  fs'.failRemove = fs.failRemove ∧
  fs'.failRename = fs.failRename ∧
  fs'.failLink = fs.failLink ∧
  fs'.failCreateDir = fs.failCreateDir ∧
  (∀ p, p ≠ d → (lookupSize fs.files p).isSome = true →
    lookupSize fs'.files p = lookupSize fs.files p) ∧
  (op.success = false → op.error.isSome = true) ∧
  (op.success = true → op.error = none)

/-- The outcome-value invariant of every produced `FileOperation`, against
the size `s` the metadata call returned: failure reclaims nothing and
carries a message, success reclaims exactly `s` and carries none. -/
def OpInv (s : Nat) (op : FileOperation) : Prop :=
  (op.success = false → op.space_saved = 0 ∧ op.error.isSome = true) ∧
  (op.success = true → op.error = none ∧ op.space_saved = s)

theorem delete_file_char {fs : FSState} {d : List Char} {dry : Bool}
    {fs' : FSState} {op : FileOperation}
    (h : delete_file fs d dry = .ok (fs', op)) :
    ∃ s, lookupSize fs.files d = some s ∧ StepInv fs fs' d op ∧ OpInv s op := by
  unfold delete_file at h
  cases hm : lookupSize fs.files d with
  | none => rw [hm] at h; exact absurd h (by simp)
  | some s =>
    rw [hm] at h
    refine ⟨s, rfl, ?_⟩
    cases dry with
    | true =>
      simp only [if_true, Except.ok.injEq, Prod.mk.injEq] at h
      obtain ⟨rfl, rfl⟩ := h.symm
      exact ⟨⟨rfl, rfl, rfl, rfl, rfl, fun p _ _ => rfl, by simp, by simp⟩,
        by simp, by simp⟩
    | false =>
      by_cases hfr : fs.failRemove.contains d = true
      · simp only [Bool.false_eq_true, if_false, hfr, if_true, Except.ok.injEq,
          Prod.mk.injEq] at h
        obtain ⟨rfl, rfl⟩ := h.symm
        exact ⟨⟨rfl, rfl, rfl, rfl, rfl, fun p _ _ => rfl, by simp, by simp⟩,
          by simp, by simp⟩
      · simp only [Bool.false_eq_true, if_false, hfr, Except.ok.injEq,
          Prod.mk.injEq] at h
        obtain ⟨rfl, rfl⟩ := h.symm
        refine ⟨⟨rfl, rfl, rfl, rfl, rfl, fun p hp _ => ?_, by simp, by simp⟩,
          by simp, by simp⟩
        simp [lookupSize_removeEntry, hp]

theorem move_file_char {fs : FSState} {d t : List Char} {dry : Bool}
    {fs' : FSState} {op : FileOperation}
    (h : move_file fs d t dry = .ok (fs', op)) :
    ∃ s, lookupSize fs.files d = some s ∧ StepInv fs fs' d op ∧ OpInv s op := by
  unfold move_file at h
  cases hm : lookupSize fs.files d with
  | none => rw [hm] at h; exact absurd h (by simp)
  | some s =>
    rw [hm] at h
    refine ⟨s, rfl, ?_⟩
    cases dry with
    | true =>
      simp only [if_true, Except.ok.injEq, Prod.mk.injEq] at h
      obtain ⟨rfl, rfl⟩ := h.symm
      exact ⟨⟨rfl, rfl, rfl, rfl, rfl, fun p _ _ => rfl, by simp, by simp⟩,
        by simp, by simp⟩
    | false =>
      simp only [Bool.false_eq_true, if_false] at h
      cases hcd : createDirAll fs t with
      | none => rw [hcd] at h; exact absurd h (by simp)
      | some fs1 =>
        rw [hcd] at h
        have hfs1 : fs1 = { fs with dirs := t :: fs.dirs } := by
          unfold createDirAll at hcd
          by_cases hct : fs.failCreateDir.contains t = true
          · rw [if_pos hct] at hcd; exact absurd hcd (by simp)
          · rw [if_neg hct] at hcd
            exact (Option.some.inj hcd).symm
        have hfiles1 : fs1.files = fs.files := by rw [hfs1]
        by_cases hfr : fs1.failRename.contains d = true
        · simp only [hfr, if_true, Except.ok.injEq, Prod.mk.injEq] at h
          obtain ⟨rfl, rfl⟩ := h.symm
          refine ⟨⟨rfl, ?_, ?_, ?_, ?_, fun p _ _ => by rw [hfiles1],
            by simp, by simp⟩, by simp, by simp⟩ <;> rw [hfs1]
        · simp only [hfr, Bool.false_eq_true, if_false, Except.ok.injEq,
            Prod.mk.injEq] at h
          obtain ⟨rfl, rfl⟩ := h.symm
          refine ⟨⟨rfl, ?_, ?_, ?_, ?_, fun p hp hsome => ?_,
            by simp, by simp⟩, by simp, by simp⟩
          · rw [hfs1]
          · rw [hfs1]
          · rw [hfs1]
          · rw [hfs1]
          · have hsome1 : (lookupSize fs1.files p).isSome = true := by
              rw [hfiles1]; exact hsome
            have hne : findTarget fs1 t (fileName d) ≠ p := by
              intro hq
              have := findTarget_free fs1 t (fileName d)
              rw [hq] at this
              rw [pathExists_of_isSome hsome1] at this
              exact absurd this (by simp)
            show lookupSize ((findTarget fs1 t (fileName d), s) ::
              removeEntry fs1.files d) p = lookupSize fs.files p
            simp only [lookupSize, hne, if_false, lookupSize_removeEntry, hp,
              if_false, hfiles1]

theorem create_hardlink_char {fs : FSState} {keeper d : List Char} {dry : Bool}
    {fs' : FSState} {op : FileOperation}
    (h : create_hardlink fs keeper d dry = .ok (fs', op)) :
    ∃ s, lookupSize fs.files d = some s ∧ StepInv fs fs' d op ∧ OpInv s op := by
  unfold create_hardlink at h
  cases hm : lookupSize fs.files d with
  | none => rw [hm] at h; exact absurd h (by simp)
  | some s =>
    rw [hm] at h
    refine ⟨s, rfl, ?_⟩
    cases dry with
    | true =>
      simp only [if_true, Except.ok.injEq, Prod.mk.injEq] at h
      obtain ⟨rfl, rfl⟩ := h.symm
      exact ⟨⟨rfl, rfl, rfl, rfl, rfl, fun p _ _ => rfl, by simp, by simp⟩,
        by simp, by simp⟩
    | false =>
      by_cases hfr : fs.failRemove.contains d = true
      · simp only [Bool.false_eq_true, if_false, hfr, if_true, Except.ok.injEq,
          Prod.mk.injEq] at h
        obtain ⟨rfl, rfl⟩ := h.symm
        exact ⟨⟨rfl, rfl, rfl, rfl, rfl, fun p _ _ => rfl, by simp, by simp⟩,
          by simp, by simp⟩
      · simp only [Bool.false_eq_true, if_false, hfr] at h
        have hpres : ∀ p, p ≠ d → (lookupSize fs.files p).isSome = true →
            lookupSize (removeEntry fs.files d) p = lookupSize fs.files p := by
          intro p hp _
          simp [lookupSize_removeEntry, hp]
        cases ho : lookupSize (removeEntry fs.files d) keeper with
        | none =>
          rw [ho] at h
          simp only [Except.ok.injEq, Prod.mk.injEq] at h
          obtain ⟨rfl, rfl⟩ := h.symm
          exact ⟨⟨rfl, rfl, rfl, rfl, rfl, hpres, by simp, by simp⟩,
            by simp, by simp⟩
        | some osize =>
          rw [ho] at h
          by_cases hfl : fs.failLink.contains d = true
          · simp only [hfl, if_true, Except.ok.injEq, Prod.mk.injEq] at h
            obtain ⟨rfl, rfl⟩ := h.symm
            exact ⟨⟨rfl, rfl, rfl, rfl, rfl, hpres, by simp, by simp⟩,
              by simp, by simp⟩
          · simp only [hfl, Bool.false_eq_true, if_false, Except.ok.injEq,
              Prod.mk.injEq] at h
            obtain ⟨rfl, rfl⟩ := h.symm
            refine ⟨⟨rfl, rfl, rfl, rfl, rfl, fun p hp hsome => ?_,
              by simp, by simp⟩, by simp, by simp⟩
            show lookupSize ((d, osize) :: removeEntry fs.files d) p =
              lookupSize fs.files p
            simp only [lookupSize, hp.symm, if_false]
            simp [lookupSize_removeEntry, hp]

theorem create_symlink_char {fs : FSState} {keeper d : List Char} {dry : Bool}
    {fs' : FSState} {op : FileOperation}
    (h : create_symlink fs keeper d dry = .ok (fs', op)) :
    ∃ s, lookupSize fs.files d = some s ∧ StepInv fs fs' d op ∧ OpInv s op := by
  unfold create_symlink at h
  cases hm : lookupSize fs.files d with
  | none => rw [hm] at h; exact absurd h (by simp)
  | some s =>
    rw [hm] at h
    refine ⟨s, rfl, ?_⟩
    cases dry with
    | true =>
      simp only [if_true, Except.ok.injEq, Prod.mk.injEq] at h
      obtain ⟨rfl, rfl⟩ := h.symm
      exact ⟨⟨rfl, rfl, rfl, rfl, rfl, fun p _ _ => rfl, by simp, by simp⟩,
        by simp, by simp⟩
    | false =>
      by_cases hfr : fs.failRemove.contains d = true
      · simp only [Bool.false_eq_true, if_false, hfr, if_true, Except.ok.injEq,
          Prod.mk.injEq] at h
        obtain ⟨rfl, rfl⟩ := h.symm
        exact ⟨⟨rfl, rfl, rfl, rfl, rfl, fun p _ _ => rfl, by simp, by simp⟩,
          by simp, by simp⟩
      · simp only [Bool.false_eq_true, if_false, hfr] at h
        have hpres : ∀ p, p ≠ d → (lookupSize fs.files p).isSome = true →
            lookupSize (removeEntry fs.files d) p = lookupSize fs.files p := by
          intro p hp _
          simp [lookupSize_removeEntry, hp]
        by_cases hfl : fs.failLink.contains d = true
        · simp only [hfl, if_true, Except.ok.injEq, Prod.mk.injEq] at h
          obtain ⟨rfl, rfl⟩ := h.symm
          exact ⟨⟨rfl, rfl, rfl, rfl, rfl, hpres, by simp, by simp⟩,
            by simp, by simp⟩
        · simp only [hfl, Bool.false_eq_true, if_false, Except.ok.injEq,
            Prod.mk.injEq] at h
          obtain ⟨rfl, rfl⟩ := h.symm
          refine ⟨⟨rfl, rfl, rfl, rfl, rfl, fun p hp hsome => ?_,
            by simp, by simp⟩, by simp, by simp⟩
          show lookupSize ((d, _) :: removeEntry fs.files d) p =
            lookupSize fs.files p
          simp only [lookupSize, hp.symm, if_false]
          simp [lookupSize_removeEntry, hp]

theorem processOne_char {fs : FSState} {keeper d : List Char} {a : DedupAction}
    {dry : Bool} {fs' : FSState} {op : FileOperation}
    (h : processOne fs keeper d a dry = .ok (fs', op)) :
    ∃ s, lookupSize fs.files d = some s ∧ StepInv fs fs' d op ∧ OpInv s op := by
  cases a with
  | List => exact absurd h (by simp [processOne])
  | Delete => exact delete_file_char h
  | Move t => exact move_file_char h
  | Hardlink => exact create_hardlink_char h
  | Symlink => exact create_symlink_char h

/-! ## Success-mode lemmas -/


theorem exists_ok_ite {c : Prop} [Decidable c] (A B : FSState × FileOperation) :
    ∃ fs' op, (if c then (Except.ok A : Except String (FSState × FileOperation))
      else .ok B) = .ok (fs', op) := by
  by_cases h : c
  · rw [if_pos h]; exact ⟨A.1, A.2, rfl⟩
  · rw [if_neg h]; exact ⟨B.1, B.2, rfl⟩

theorem processOne_ok {fs : FSState} {keeper d : List Char} {a : DedupAction}
    {dry : Bool} (ha : a ≠ DedupAction.List)
    (hm : (lookupSize fs.files d).isSome = true)
    (hcd : ∀ t, a = DedupAction.Move t → fs.failCreateDir.contains t = false) :
    ∃ fs' op, processOne fs keeper d a dry = .ok (fs', op) := by
  obtain ⟨s, hs⟩ := Option.isSome_iff_exists.mp hm
  cases a with
  | List => exact absurd rfl ha
  | Delete =>
    show ∃ fs' op, delete_file fs d dry = .ok (fs', op)
    unfold delete_file
    rw [hs]
    cases dry with
    | true => exact ⟨_, _, rfl⟩
    | false =>
      simp only [Bool.false_eq_true, if_false]
      exact exists_ok_ite _ _
  | Move t =>
    show ∃ fs' op, move_file fs d t dry = .ok (fs', op)
    unfold move_file
    rw [hs]
    cases dry with
    | true => exact ⟨_, _, rfl⟩
    | false =>
      have hcda : createDirAll fs t = some { fs with dirs := t :: fs.dirs } := by
        unfold createDirAll
        rw [if_neg (by rw [hcd t rfl]; exact Bool.false_ne_true)]
      simp only [Bool.false_eq_true, if_false, hcda]
      exact exists_ok_ite _ _
  | Hardlink =>
    show ∃ fs' op, create_hardlink fs keeper d dry = .ok (fs', op)
    unfold create_hardlink
    rw [hs]
    cases dry with
    | true => exact ⟨_, _, rfl⟩
    | false =>
      simp only [Bool.false_eq_true, if_false]
      by_cases hfr : fs.failRemove.contains d = true
      · rw [if_pos hfr]
        exact ⟨_, _, rfl⟩
      · rw [if_neg hfr]
        cases ho : lookupSize (removeEntry fs.files d) keeper with
        | none => simp only [ho]; exact ⟨_, _, rfl⟩
        | some osize =>
          simp only [ho]
          exact exists_ok_ite _ _
  | Symlink =>
    show ∃ fs' op, create_symlink fs keeper d dry = .ok (fs', op)
    unfold create_symlink
    rw [hs]
    cases dry with
    | true => exact ⟨_, _, rfl⟩
    | false =>
      simp only [Bool.false_eq_true, if_false]
      by_cases hfr : fs.failRemove.contains d = true
      · rw [if_pos hfr]
        exact ⟨_, _, rfl⟩
      · rw [if_neg hfr]
        exact exists_ok_ite _ _

theorem processOne_dry {fs : FSState} {keeper d : List Char} {a : DedupAction}
    {s : Nat} (ha : a ≠ DedupAction.List) (hm : lookupSize fs.files d = some s) :
    ∃ op, processOne fs keeper d a true = .ok (fs, op) ∧
      op.success = true ∧ op.space_saved = s ∧ op.path = d := by
  cases a with
  | List => exact absurd rfl ha
  | Delete =>
    refine ⟨⟨d, "delete", true, none, s⟩, ?_, rfl, rfl, rfl⟩
    show delete_file fs d true = _
    unfold delete_file
    rw [hm]
    rfl
  | Move t =>
    refine ⟨⟨d, "move", true, none, s⟩, ?_, rfl, rfl, rfl⟩
    show move_file fs d t true = _
    unfold move_file
    rw [hm]
    rfl
  | Hardlink =>
    refine ⟨⟨d, "hardlink", true, none, s⟩, ?_, rfl, rfl, rfl⟩
    show create_hardlink fs keeper d true = _
    unfold create_hardlink
    rw [hm]
    rfl
  | Symlink =>
    refine ⟨⟨d, "symlink", true, none, s⟩, ?_, rfl, rfl, rfl⟩
    show create_symlink fs keeper d true = _
    unfold create_symlink
    rw [hm]
    rfl

/-- The per-member conditions under which a live step succeeds: the
mutation oracles are clean, and for `Hardlink` the keeper is a distinct,
still-present file (`fs::hard_link` reads it). -/
def cleanStep (fs : FSState) (keeper : List Char) (a : DedupAction)
    (d : List Char) : Prop :=
  match a with
  | .List => False
  | .Delete => fs.failRemove.contains d = false
  | .Move t => fs.failRename.contains d = false ∧ fs.failCreateDir.contains t = false
  | .Hardlink => fs.failRemove.contains d = false ∧ fs.failLink.contains d = false ∧
      keeper ≠ d ∧ (lookupSize fs.files keeper).isSome = true
  | .Symlink => fs.failRemove.contains d = false ∧ fs.failLink.contains d = false

theorem processOne_clean {fs : FSState} {keeper d : List Char} {a : DedupAction}
    {s : Nat} (hm : lookupSize fs.files d = some s)
    (hc : cleanStep fs keeper a d) :
    ∃ fs' op, processOne fs keeper d a false = .ok (fs', op) ∧
      op.success = true ∧ op.space_saved = s := by
  cases a with
  | List => exact absurd hc (by simp [cleanStep])
  | Delete =>
    have hc1 : fs.failRemove.contains d = false := hc
    show ∃ fs' op, delete_file fs d false = .ok (fs', op) ∧ _
    unfold delete_file
    rw [hm]
    simp only [Bool.false_eq_true, if_false]
    rw [if_neg (by rw [hc1]; exact Bool.false_ne_true)]
    exact ⟨_, _, rfl, rfl, rfl⟩
  | Move t =>
    have hc1 : fs.failRename.contains d = false := hc.1
    have hc2 : fs.failCreateDir.contains t = false := hc.2
    show ∃ fs' op, move_file fs d t false = .ok (fs', op) ∧ _
    unfold move_file
    rw [hm]
    have hcda : createDirAll fs t = some { fs with dirs := t :: fs.dirs } := by
      unfold createDirAll
      rw [if_neg (by rw [hc2]; exact Bool.false_ne_true)]
    simp only [Bool.false_eq_true, if_false, hcda]
    rw [if_neg (by
      show ¬({ fs with dirs := t :: fs.dirs } : FSState).failRename.contains d = true
      rw [show ({ fs with dirs := t :: fs.dirs } : FSState).failRename =
        fs.failRename from rfl, hc1]
      exact Bool.false_ne_true)]
    exact ⟨_, _, rfl, rfl, rfl⟩
  | Hardlink =>
    have hc1 : fs.failRemove.contains d = false := hc.1
    have hc2 : fs.failLink.contains d = false := hc.2.1
    have hc3 : keeper ≠ d := hc.2.2.1
    have hc4 : (lookupSize fs.files keeper).isSome = true := hc.2.2.2
    show ∃ fs' op, create_hardlink fs keeper d false = .ok (fs', op) ∧ _
    unfold create_hardlink
    rw [hm]
    simp only [Bool.false_eq_true, if_false]
    rw [if_neg (by rw [hc1]; exact Bool.false_ne_true)]
    have hk : lookupSize (removeEntry fs.files d) keeper =
        lookupSize fs.files keeper := by
      rw [lookupSize_removeEntry, if_neg hc3]
    obtain ⟨osize, ho⟩ := Option.isSome_iff_exists.mp hc4
    rw [ho] at hk
    simp only [hk]
    rw [if_neg (by rw [hc2]; exact Bool.false_ne_true)]
    exact ⟨_, _, rfl, rfl, rfl⟩
  | Symlink =>
    have hc1 : fs.failRemove.contains d = false := hc.1
    have hc2 : fs.failLink.contains d = false := hc.2
    show ∃ fs' op, create_symlink fs keeper d false = .ok (fs', op) ∧ _
    unfold create_symlink
    rw [hm]
    simp only [Bool.false_eq_true, if_false]
    rw [if_neg (by rw [hc1]; exact Bool.false_ne_true)]
    rw [if_neg (by rw [hc2]; exact Bool.false_ne_true)]
    exact ⟨_, _, rfl, rfl, rfl⟩

theorem delete_file_live {fs : FSState} {d : List Char} {s : Nat}
    (hm : lookupSize fs.files d = some s)
    (hfr : fs.failRemove.contains d = false) :
    delete_file fs d false = .ok ({ fs with files := removeEntry fs.files d },
      ⟨d, "delete", true, none, s⟩) := by
  unfold delete_file
  rw [hm]
  simp only [Bool.false_eq_true, if_false]
  rw [if_neg (by rw [hfr]; exact Bool.false_ne_true)]

/-! ## Running a whole group -/

theorem runAll_nil (keeper : List Char) (a : DedupAction) (dry : Bool)
    (fs : FSState) (acc : ActionResult) :
    runAll keeper a dry fs [] acc = .ok (fs, acc) := rfl

theorem runAll_cons_ne_list {a : DedupAction} (ha : a ≠ DedupAction.List)
    (keeper : List Char) (dry : Bool) (fs : FSState) (d : FileInfo)
    (rest : List FileInfo) (acc : ActionResult) :
    runAll keeper a dry fs (d :: rest) acc =
      match processOne fs keeper d.path a dry with
      | .error e => .error e
      | .ok (fs', op) => runAll keeper a dry fs' rest (acc.add_operation op) := by
  cases a with
  | List => exact absurd rfl ha
  | Delete => rfl
  | Move t => rfl
  | Hardlink => rfl
  | Symlink => rfl

theorem runAll_ok {a : DedupAction} (ha : a ≠ DedupAction.List) (dry : Bool)
    (keeper : List Char) :
    ∀ (dups : List FileInfo) (fs : FSState) (acc : ActionResult),
      (dups.map FileInfo.path).Nodup →
      (∀ d ∈ dups, (lookupSize fs.files d.path).isSome = true) →
      (∀ t, a = DedupAction.Move t → fs.failCreateDir.contains t = false) →
      ∃ fs' res, runAll keeper a dry fs dups acc = .ok (fs', res) ∧
        res.operations.length = acc.operations.length + dups.length ∧
        res.total_files_processed = acc.total_files_processed + dups.length ∧
        (∀ op ∈ res.operations, op ∈ acc.operations ∨
          ((op.success = false → op.error.isSome = true) ∧
            op.path ∈ dups.map FileInfo.path)) ∧
        fs'.failRemove = fs.failRemove ∧ fs'.failRename = fs.failRename ∧
        fs'.failLink = fs.failLink ∧ fs'.failCreateDir = fs.failCreateDir ∧
        (∀ p, p ∉ dups.map FileInfo.path →
          (lookupSize fs.files p).isSome = true →
          lookupSize fs'.files p = lookupSize fs.files p) := by
  intro dups
  induction dups with
  | nil =>
    intro fs acc _ _ _
    exact ⟨fs, acc, rfl, by simp, by simp, fun op hop => Or.inl hop,
      rfl, rfl, rfl, rfl, fun p _ _ => rfl⟩
  | cons d rest ih =>
    intro fs acc hnd hpres hcd
    obtain ⟨fs1, op, hstep⟩ :=
      processOne_ok ha (hpres d (List.mem_cons_self d rest)) hcd
    obtain ⟨s, hms, hsi, _⟩ := processOne_char hstep
    obtain ⟨hpath, hr1, hr2, hr3, hr4, hkeep, herr, _⟩ := hsi
    have hnd' : (rest.map FileInfo.path).Nodup := by
      simpa using hnd.of_cons
    have hdnotin : d.path ∉ rest.map FileInfo.path := by
      have := hnd
      simp only [List.map_cons, List.nodup_cons] at this
      exact this.1
    have hpres1 : ∀ d' ∈ rest, (lookupSize fs1.files d'.path).isSome = true := by
      intro d' hd'
      have hne : d'.path ≠ d.path := by
        intro hcontra
        exact hdnotin (hcontra ▸ List.mem_map_of_mem FileInfo.path hd')
      rw [hkeep d'.path hne (hpres d' (List.mem_cons_of_mem d hd'))]
      exact hpres d' (List.mem_cons_of_mem d hd')
    have hcd1 : ∀ t, a = DedupAction.Move t → fs1.failCreateDir.contains t = false := by
      intro t hat
      rw [hr4]
      exact hcd t hat
    obtain ⟨fs2, res, hrun, hlen, htfp, hops, hs1, hs2, hs3, hs4, hkeep2⟩ :=
      ih fs1 (acc.add_operation op) hnd' hpres1 hcd1
    refine ⟨fs2, res, ?_, ?_, ?_, ?_, ?_, ?_, ?_, ?_, ?_⟩
    · rw [runAll_cons_ne_list ha, hstep]
      exact hrun
    · rw [hlen]
      simp [ActionResult.add_operation]
      omega
    · rw [htfp]
      simp [ActionResult.add_operation]
      omega
    · intro op' hop'
      rcases hops op' hop' with hmem | ⟨hinv, hpin⟩
      · rw [show (acc.add_operation op).operations = acc.operations ++ [op]
          from rfl] at hmem
        rcases List.mem_append.mp hmem with hmem | hmem
        · exact Or.inl hmem
        · have : op' = op := by simpa using hmem
          subst this
          exact Or.inr ⟨herr, by rw [hpath]; exact List.mem_cons_self _ _⟩
      · exact Or.inr ⟨hinv, List.mem_cons_of_mem _ hpin⟩
    · rw [hs1, hr1]
    · rw [hs2, hr2]
    · rw [hs3, hr3]
    · rw [hs4, hr4]
    · intro p hpnot hsome
      have hne : p ≠ d.path := by
        intro hcontra
        exact hpnot (by rw [hcontra]; exact List.mem_cons_self _ _)
      have hpnotrest : p ∉ rest.map FileInfo.path := by
        intro hcontra
        exact hpnot (List.mem_cons_of_mem _ hcontra)
      have h1 := hkeep p hne hsome
      rw [hkeep2 p hpnotrest (by rw [h1]; exact hsome), h1]

/-- The outcome values (success flag, reclaimed bytes) of an operation. -/
def opProj (op : FileOperation) : Bool × Nat := (op.success, op.space_saved)

/-- The outcome values an untroubled run reports for member `d` against
state `fs`: success, reclaiming the file's recorded size. -/
def cleanOutcome (fs : FSState) (d : FileInfo) : Bool × Nat :=
  (true, (lookupSize fs.files d.path).getD 0)

theorem runAll_dry {a : DedupAction} (ha : a ≠ DedupAction.List)
    (keeper : List Char) :
    ∀ (dups : List FileInfo) (fs : FSState) (acc : ActionResult),
      (∀ d ∈ dups, (lookupSize fs.files d.path).isSome = true) →
      ∃ res, runAll keeper a true fs dups acc = .ok (fs, res) ∧
        res.operations.map opProj =
          acc.operations.map opProj ++ dups.map (cleanOutcome fs) := by
  intro dups
  induction dups with
  | nil => intro fs acc _; exact ⟨acc, rfl, by simp⟩
  | cons d rest ih =>
    intro fs acc hpres
    obtain ⟨s, hs⟩ :=
      Option.isSome_iff_exists.mp (hpres d (List.mem_cons_self d rest))
    obtain ⟨op, hstep, hsucc, hspace, _⟩ := processOne_dry ha hs
    obtain ⟨res, hrun, hproj⟩ := ih fs (acc.add_operation op)
      (fun d' hd' => hpres d' (List.mem_cons_of_mem d hd'))
    refine ⟨res, ?_, ?_⟩
    · rw [runAll_cons_ne_list ha, hstep]
      exact hrun
    · rw [hproj]
      show (acc.operations ++ [op]).map opProj ++ _ = _
      rw [List.map_append, List.append_assoc]
      congr 1
      simp [opProj, hsucc, hspace, cleanOutcome, hs]

theorem runAll_live {a : DedupAction} (ha : a ≠ DedupAction.List)
    (keeper : List Char) :
    ∀ (dups : List FileInfo) (fs : FSState) (acc : ActionResult),
      (dups.map FileInfo.path).Nodup →
      keeper ∉ dups.map FileInfo.path →
      (∀ d ∈ dups, (lookupSize fs.files d.path).isSome = true) →
      (∀ d ∈ dups, cleanStep fs keeper a d.path) →
      ∃ fs' res, runAll keeper a false fs dups acc = .ok (fs', res) ∧
        res.operations.map opProj =
          acc.operations.map opProj ++ dups.map (cleanOutcome fs) := by
  intro dups
  induction dups with
  | nil => intro fs acc _ _ _ _; exact ⟨fs, acc, rfl, by simp⟩
  | cons d rest ih =>
    intro fs acc hnd hknotin hpres hcleans
    obtain ⟨s, hs⟩ :=
      Option.isSome_iff_exists.mp (hpres d (List.mem_cons_self d rest))
    obtain ⟨fs1, op, hstep, hsucc, hspace⟩ :=
      processOne_clean hs (hcleans d (List.mem_cons_self d rest))
    obtain ⟨s', hms', hsi, _⟩ := processOne_char hstep
    obtain ⟨hpath, hr1, hr2, hr3, hr4, hkeep, _, _⟩ := hsi
    have hknd : keeper ≠ d.path := by
      intro hcontra
      exact hknotin (by rw [hcontra]; exact List.mem_cons_self _ _)
    have hdnotin : d.path ∉ rest.map FileInfo.path := by
      have := hnd
      simp only [List.map_cons, List.nodup_cons] at this
      exact this.1
    have hlook : ∀ d' ∈ rest, lookupSize fs1.files d'.path =
        lookupSize fs.files d'.path := by
      intro d' hd'
      have hne : d'.path ≠ d.path := by
        intro hcontra
        exact hdnotin (hcontra ▸ List.mem_map_of_mem FileInfo.path hd')
      exact hkeep d'.path hne (hpres d' (List.mem_cons_of_mem d hd'))
    have hpres1 : ∀ d' ∈ rest, (lookupSize fs1.files d'.path).isSome = true := by
      intro d' hd'
      rw [hlook d' hd']
      exact hpres d' (List.mem_cons_of_mem d hd')
    have hclean1 : ∀ d' ∈ rest, cleanStep fs1 keeper a d'.path := by
      intro d' hd'
      have hc := hcleans d' (List.mem_cons_of_mem d hd')
      cases a with
      | List => exact absurd rfl ha
      | Delete =>
        show fs1.failRemove.contains d'.path = false
        rw [hr1]; exact hc
      | Move t =>
        exact ⟨by rw [hr2]; exact hc.1, by rw [hr4]; exact hc.2⟩
      | Hardlink =>
        refine ⟨by rw [hr1]; exact hc.1, by rw [hr3]; exact hc.2.1, hc.2.2.1, ?_⟩
        rw [hkeep keeper hknd hc.2.2.2]
        exact hc.2.2.2
      | Symlink =>
        exact ⟨by rw [hr1]; exact hc.1, by rw [hr3]; exact hc.2⟩
    obtain ⟨fs2, res, hrun, hproj⟩ := ih fs1 (acc.add_operation op)
      (by simpa using hnd.of_cons) (fun hmem => hknotin (List.mem_cons_of_mem _ hmem))
      hpres1 hclean1
    refine ⟨fs2, res, ?_, ?_⟩
    · rw [runAll_cons_ne_list ha, hstep]
      exact hrun
    · rw [hproj]
      show (acc.operations ++ [op]).map opProj ++ _ = _
      rw [List.map_append, List.append_assoc]
      congr 1
      have hmapeq : rest.map (cleanOutcome fs1) = rest.map (cleanOutcome fs) := by
        apply List.map_congr_left
        intro d' hd'
        unfold cleanOutcome
        rw [hlook d' hd']
      rw [hmapeq]
      simp [opProj, hsucc, hspace, cleanOutcome, hs]

theorem runAll_delete_live (keeper : List Char) :
    ∀ (dups : List FileInfo) (fs : FSState) (acc : ActionResult),
      (dups.map FileInfo.path).Nodup →
      (∀ d ∈ dups, (lookupSize fs.files d.path).isSome = true) →
      (∀ d ∈ dups, fs.failRemove.contains d.path = false) →
      ∃ fs' res, runAll keeper DedupAction.Delete false fs dups acc = .ok (fs', res) ∧
        (∀ p, lookupSize fs'.files p =
          if p ∈ dups.map FileInfo.path then none else lookupSize fs.files p) ∧
        res.total_files_processed = acc.total_files_processed + dups.length ∧
        res.total_space_saved = acc.total_space_saved +
          (dups.map (fun d => (lookupSize fs.files d.path).getD 0)).sum ∧
        fs'.dirs = fs.dirs := by
  intro dups
  induction dups with
  | nil =>
    intro fs acc _ _ _
    exact ⟨fs, acc, rfl, fun p => by simp, by simp, by simp, rfl⟩
  | cons d rest ih =>
    intro fs acc hnd hpres hfr
    obtain ⟨s, hs⟩ :=
      Option.isSome_iff_exists.mp (hpres d (List.mem_cons_self d rest))
    have hstep := delete_file_live hs (hfr d (List.mem_cons_self d rest))
    have hdnotin : d.path ∉ rest.map FileInfo.path := by
      have := hnd
      simp only [List.map_cons, List.nodup_cons] at this
      exact this.1
    have hlook1 : ∀ p, lookupSize (removeEntry fs.files d.path) p =
        if p = d.path then none else lookupSize fs.files p :=
      fun p => lookupSize_removeEntry fs.files d.path p
    have hpres1 : ∀ d' ∈ rest,
        (lookupSize (removeEntry fs.files d.path) d'.path).isSome = true := by
      intro d' hd'
      have hne : d'.path ≠ d.path := by
        intro hcontra
        exact hdnotin (hcontra ▸ List.mem_map_of_mem FileInfo.path hd')
      rw [hlook1, if_neg hne]
      exact hpres d' (List.mem_cons_of_mem d hd')
    obtain ⟨fs2, res, hrun, hpt, htfp, htss, hdirs⟩ :=
      ih { fs with files := removeEntry fs.files d.path }
        (acc.add_operation ⟨d.path, "delete", true, none, s⟩)
        (by simpa using hnd.of_cons) hpres1
        (fun d' hd' => hfr d' (List.mem_cons_of_mem d hd'))
    refine ⟨fs2, res, ?_, ?_, ?_, ?_, hdirs⟩
    · rw [runAll_cons_ne_list (by decide)]
      simp only [processOne]
      rw [hstep]
      exact hrun
    · intro p
      rw [hpt p]
      by_cases hp1 : p ∈ rest.map FileInfo.path
      · rw [if_pos hp1, if_pos (by simp [hp1])]
      · rw [if_neg hp1]
        show lookupSize (removeEntry fs.files d.path) p = _
        rw [hlook1 p]
        by_cases hp2 : p = d.path
        · rw [if_pos hp2, if_pos (by simp [hp2])]
        · rw [if_neg hp2, if_neg (by simp [hp1, hp2])]
    · rw [htfp]
      simp [ActionResult.add_operation]
      omega
    · rw [htss]
      have hsz : ∀ d' ∈ rest,
          (lookupSize (removeEntry fs.files d.path) d'.path).getD 0 =
            (lookupSize fs.files d'.path).getD 0 := by
        intro d' hd'
        have hne : d'.path ≠ d.path := by
          intro hcontra
          exact hdnotin (hcontra ▸ List.mem_map_of_mem FileInfo.path hd')
        rw [hlook1, if_neg hne]
      show (acc.add_operation ⟨d.path, "delete", true, none, s⟩).total_space_saved
          + _ = _
      rw [show (acc.add_operation ⟨d.path, "delete", true, none, s⟩).total_space_saved
        = acc.total_space_saved + s from rfl]
      rw [List.map_congr_left hsz]
      simp [hs]
      omega

/-! ## Running every group -/

/-- The non-keeper member paths of every retained (size > 1) group. -/
def retainedMembers (groups : List (String × List FileInfo)) : List (List Char) :=
  (groups.map (fun g =>
    if g.2.length > 1 then (g.2.drop 1).map FileInfo.path else [])).flatten

/-- The number of non-keeper members over all retained groups:
the sum of `group_size - 1`. -/
def retainedCount (groups : List (String × List FileInfo)) : Nat :=
  (groups.map (fun g => if g.2.length > 1 then g.2.length - 1 else 0)).sum

theorem retainedMembers_cons (h : String) (files : List FileInfo)
    (rest : List (String × List FileInfo)) :
    retainedMembers ((h, files) :: rest) =
      (if files.length > 1 then (files.drop 1).map FileInfo.path else []) ++
        retainedMembers rest := rfl

theorem mergeOps_operations (ops : List FileOperation) :
    ∀ acc, (mergeOps acc ops).operations = acc.operations ++ ops := by
  induction ops with
  | nil => intro acc; simp [mergeOps]
  | cons op rest ih =>
    intro acc
    show (mergeOps (acc.add_operation op) rest).operations = _
    rw [ih]
    simp [ActionResult.add_operation]

theorem mergeOps_tfp (ops : List FileOperation) :
    ∀ acc, (mergeOps acc ops).total_files_processed =
      acc.total_files_processed + ops.length := by
  induction ops with
  | nil => intro acc; simp [mergeOps]
  | cons op rest ih =>
    intro acc
    show (mergeOps (acc.add_operation op) rest).total_files_processed = _
    rw [ih]
    simp [ActionResult.add_operation]
    omega

theorem runGroups_ok {a : DedupAction} (ha : a ≠ DedupAction.List) (dry : Bool) :
    ∀ (groups : List (String × List FileInfo)) (fs : FSState) (acc : ActionResult),
      (retainedMembers groups).Nodup →
      (∀ p ∈ retainedMembers groups, (lookupSize fs.files p).isSome = true) →
      (∀ t, a = DedupAction.Move t → fs.failCreateDir.contains t = false) →
      ∃ fs' res, runGroups a dry fs groups acc = .ok (fs', res) ∧
        res.total_files_processed = acc.total_files_processed + retainedCount groups ∧
        (∀ op ∈ res.operations, op ∈ acc.operations ∨
          (op.success = false → op.error.isSome = true)) ∧
        fs'.failCreateDir = fs.failCreateDir ∧
        (∀ p, p ∉ retainedMembers groups → (lookupSize fs.files p).isSome = true →
          lookupSize fs'.files p = lookupSize fs.files p) := by
  intro groups
  induction groups with
  | nil =>
    intro fs acc _ _ _
    exact ⟨fs, acc, rfl, by simp [retainedCount], fun op hop => Or.inl hop, rfl,
      fun p _ _ => rfl⟩
  | cons g rest ih =>
    obtain ⟨h, files⟩ := g
    intro fs acc hnd hpres hcd
    rw [retainedMembers_cons] at hnd hpres
    by_cases hlen : files.length > 1
    · rw [if_pos hlen] at hnd hpres
      obtain ⟨nd1, nd2, ndisj⟩ := List.nodup_append.mp hnd
      obtain ⟨k, ds, rfl⟩ : ∃ k ds, files = k :: ds := by
        cases files with
        | nil => simp at hlen
        | cons k ds => exact ⟨k, ds, rfl⟩
      have hds : (k :: ds).drop 1 = ds := rfl
      rw [hds] at nd1 ndisj hpres
      obtain ⟨fs1, r, hrun1, hlen1, _, hops1, _, _, _, hcd1, hkeep1⟩ :=
        runAll_ok ha dry k.path ds fs ActionResult.new nd1
          (fun d hd => hpres d.path
            (List.mem_append_left _ (List.mem_map_of_mem FileInfo.path hd)))
          hcd
      have hpres2 : ∀ p ∈ retainedMembers rest,
          (lookupSize fs1.files p).isSome = true := by
        intro p hp
        rw [hkeep1 p (fun hmem => ndisj hmem hp)
          (hpres p (List.mem_append_right _ hp))]
        exact hpres p (List.mem_append_right _ hp)
      have hcd2 : ∀ t, a = DedupAction.Move t →
          fs1.failCreateDir.contains t = false := by
        intro t hat
        rw [hcd1]
        exact hcd t hat
      obtain ⟨fs2, res, hrun2, htfp2, hops2, hcd3, hkeep2⟩ :=
        ih fs1 (mergeOps acc r.operations) nd2 hpres2 hcd2
      refine ⟨fs2, res, ?_, ?_, ?_, ?_, ?_⟩
      · show (if (k :: ds).length > 1 then _ else _) = _
        rw [if_pos hlen]
        show (match perform_action fs (k :: ds) a dry with
          | .error e => Except.error e
          | .ok (fs', r) => runGroups a dry fs' rest (mergeOps acc r.operations)) = _
        rw [show perform_action fs (k :: ds) a dry =
          runAll k.path a dry fs ds ActionResult.new from rfl, hrun1]
        exact hrun2
      · rw [htfp2, mergeOps_tfp]
        show _ = acc.total_files_processed + retainedCount ((h, k :: ds) :: rest)
        rw [show retainedCount ((h, k :: ds) :: rest) =
          (if (k :: ds).length > 1 then (k :: ds).length - 1 else 0) +
            retainedCount rest from by simp [retainedCount]]
        rw [if_pos hlen]
        rw [hlen1]
        show acc.total_files_processed + (ActionResult.new.operations.length
          + ds.length) + retainedCount rest = _
        simp [ActionResult.new]
        omega
      · intro op hop
        rcases hops2 op hop with hmem | hinv
        · rw [mergeOps_operations] at hmem
          rcases List.mem_append.mp hmem with hmem | hmem
          · exact Or.inl hmem
          · rcases hops1 op hmem with hmem' | ⟨hinv', _⟩
            · exact absurd hmem' (by simp [ActionResult.new])
            · exact Or.inr hinv'
        · exact Or.inr hinv
      · rw [hcd3, hcd1]
      · intro p hpnot hsome
        have hp1 : p ∉ ds.map FileInfo.path := by
          intro hmem
          exact hpnot (by
            rw [retainedMembers_cons, if_pos hlen, hds]
            exact List.mem_append_left _ hmem)
        have hp2 : p ∉ retainedMembers rest := by
          intro hmem
          exact hpnot (by
            rw [retainedMembers_cons]
            exact List.mem_append_right _ hmem)
        have e1 := hkeep1 p hp1 hsome
        rw [hkeep2 p hp2 (by rw [e1]; exact hsome), e1]
    · rw [if_neg hlen] at hnd hpres
      simp only [List.nil_append] at hnd hpres
      obtain ⟨fs2, res, hrun2, htfp2, hops2, hcd3, hkeep2⟩ := ih fs acc hnd hpres hcd
      refine ⟨fs2, res, ?_, ?_, hops2, hcd3, ?_⟩
      · show (if files.length > 1 then _ else _) = _
        rw [if_neg hlen]
        exact hrun2
      · rw [htfp2]
        show _ = acc.total_files_processed + retainedCount ((h, files) :: rest)
        rw [show retainedCount ((h, files) :: rest) =
          (if files.length > 1 then files.length - 1 else 0) +
            retainedCount rest from by simp [retainedCount]]
        rw [if_neg hlen]
        omega
      · intro p hpnot hsome
        refine hkeep2 p (fun hmem => hpnot ?_) hsome
        rw [retainedMembers_cons, if_neg hlen]
        exact hmem

/-! ## Aggregate arithmetic -/

theorem mergeOps_tss (ops : List FileOperation) :
    ∀ acc, (mergeOps acc ops).total_space_saved =
      acc.total_space_saved + (ops.map FileOperation.space_saved).sum := by
  induction ops with
  | nil => intro acc; simp [mergeOps]
  | cons op rest ih =>
    intro acc
    show (mergeOps (acc.add_operation op) rest).total_space_saved = _
    rw [ih]
    simp [ActionResult.add_operation]
    omega

theorem filter_success_split (ops : List FileOperation) :
    (ops.filter (fun op => op.success)).length +
      (ops.filter (fun op => !op.success)).length = ops.length := by
  induction ops with
  | nil => rfl
  | cons op rest ih =>
    cases h : op.success with
    | true => simp [List.filter_cons, h]; omega
    | false => simp [List.filter_cons, h]; omega

/-! ## Keeper preservation and counting helpers -/

theorem runAll_list (keeper : List Char) (dry : Bool) :
    ∀ (dups : List FileInfo) (fs : FSState) (acc : ActionResult),
      runAll keeper DedupAction.List dry fs dups acc = .ok (fs, acc) := by
  intro dups
  induction dups with
  | nil => intro fs acc; rfl
  | cons d rest ih => intro fs acc; exact ih fs acc

theorem runAll_keeper (keeper : List Char) (a : DedupAction) (dry : Bool) :
    ∀ (dups : List FileInfo) (fs : FSState) (acc : ActionResult)
      (fs' : FSState) (res : ActionResult),
      runAll keeper a dry fs dups acc = .ok (fs', res) →
      ∀ p, p ∉ dups.map FileInfo.path → (lookupSize fs.files p).isSome = true →
        lookupSize fs'.files p = lookupSize fs.files p ∧
        (∀ op ∈ res.operations, op ∈ acc.operations ∨ op.path ∈ dups.map FileInfo.path) := by
  intro dups
  induction dups with
  | nil =>
    intro fs acc fs' res hrun p _ _
    have h1 : fs = fs' ∧ acc = res := by
      have := hrun
      rw [runAll_nil] at this
      simpa using this
    obtain ⟨rfl, rfl⟩ := h1
    exact ⟨rfl, fun op hop => Or.inl hop⟩
  | cons d rest ih =>
    intro fs acc fs' res hrun p hpnot hsome
    by_cases haL : a = DedupAction.List
    · subst haL
      rw [runAll_list] at hrun
      obtain ⟨rfl, rfl⟩ : fs = fs' ∧ acc = res := by simpa using hrun
      exact ⟨rfl, fun op hop => Or.inl hop⟩
    · rw [runAll_cons_ne_list haL] at hrun
      cases hstep : processOne fs keeper d.path a dry with
      | error e => rw [hstep] at hrun; exact absurd hrun (by simp)
      | ok pair =>
        obtain ⟨fs1, op⟩ := pair
        rw [hstep] at hrun
        obtain ⟨_, _, hsi, _⟩ := processOne_char hstep
        obtain ⟨hpath, _, _, _, _, hkeep, _, _⟩ := hsi
        have hne : p ≠ d.path := by
          intro hcontra
          exact hpnot (by rw [hcontra]; exact List.mem_cons_self _ _)
        have hprest : p ∉ rest.map FileInfo.path :=
          fun hmem => hpnot (List.mem_cons_of_mem _ hmem)
        have e1 := hkeep p hne hsome
        obtain ⟨e2, hops⟩ := ih fs1 (acc.add_operation op) fs' res hrun p hprest
          (by rw [e1]; exact hsome)
        refine ⟨by rw [e2, e1], fun op' hop' => ?_⟩
        rcases hops op' hop' with hmem | hmem
        · rw [show (acc.add_operation op).operations = acc.operations ++ [op]
            from rfl] at hmem
          rcases List.mem_append.mp hmem with hmem | hmem
          · exact Or.inl hmem
          · have : op' = op := by simpa using hmem
            subst this
            exact Or.inr (by rw [hpath]; exact List.mem_cons_self _ _)
        · exact Or.inr (List.mem_cons_of_mem _ hmem)

theorem sum_map_const {α : Type} (l : List α) (c : Nat) :
    (l.map (fun _ => c)).sum = c * l.length := by
  induction l with
  | nil => simp
  | cons x rest ih => simp [ih]; ring

theorem retained_sums (gs : List (String × List FileInfo))
    (hall : ∀ g ∈ gs, 1 < g.2.length) :
    (gs.map (fun g => if g.2.length > 1 then g.2.length - 1 else 0)).sum =
      (gs.map (fun g => g.2.length - 1)).sum ∧
    (gs.map (fun g => if g.2.length > 1 then
        (match g.2 with | [] => 0 | f :: _ => f.size) * (g.2.length - 1)
      else 0)).sum =
      (gs.map (fun g =>
        ((g.2.head?.map FileInfo.size).getD 0) * (g.2.length - 1))).sum := by
  induction gs with
  | nil => exact ⟨rfl, rfl⟩
  | cons g rest ih =>
    have hg := hall g (List.mem_cons_self g rest)
    obtain ⟨ih1, ih2⟩ := ih (fun g' hg' => hall g' (List.mem_cons_of_mem g hg'))
    constructor
    · simp only [List.map_cons, List.sum_cons, if_pos hg, ih1]
    · simp only [List.map_cons, List.sum_cons, if_pos hg, ih2]
      congr 1
      cases hf : g.2 with
      | nil => rw [hf] at hg; simp at hg
      | cons f frest => simp

/-! ## Claim theorems -/

/-- C9: folding any sequence of operations into an `ActionResult` with
`add_operation` (starting from `ActionResult::new`) keeps
`total_files_processed` equal to the length of `operations`,
`total_space_saved` equal to the sum of the operations' `space_saved`, and
`success_count + error_count` equal to `total_files_processed`. -/
theorem claim_C9 (ops : List FileOperation) :
    (mergeOps ActionResult.new ops).total_files_processed =
      (mergeOps ActionResult.new ops).operations.length ∧
    (mergeOps ActionResult.new ops).total_space_saved =
      ((mergeOps ActionResult.new ops).operations.map FileOperation.space_saved).sum ∧
    (mergeOps ActionResult.new ops).success_count +
        (mergeOps ActionResult.new ops).error_count =
      (mergeOps ActionResult.new ops).total_files_processed := by
  have h1 := mergeOps_operations ops ActionResult.new
  have h2 := mergeOps_tfp ops ActionResult.new
  have h3 := mergeOps_tss ops ActionResult.new
  rw [show ActionResult.new.operations = [] from rfl, List.nil_append] at h1
  rw [show ActionResult.new.total_files_processed = 0 from rfl] at h2
  rw [show ActionResult.new.total_space_saved = 0 from rfl] at h3
  refine ⟨?_, ?_, ?_⟩
  · rw [h2, h1]; omega
  · rw [h3, h1]; omega
  · unfold ActionResult.success_count ActionResult.error_count
    rw [filter_success_split, h2, h1]
    omega

/-- C7: after singleton filtering, `get_duplicate_count` is the sum of
`group_size - 1` over the retained groups, and `get_wasted_space` is the
sum of `keeper_size * (group_size - 1)` where the keeper is each group's
first member. -/
theorem claim_C7 (r : DedupResult) :
    r.filter_duplicates.get_duplicate_count =
      (r.filter_duplicates.duplicates.map (fun g => g.2.length - 1)).sum ∧
    r.filter_duplicates.get_wasted_space =
      (r.filter_duplicates.duplicates.map (fun g =>
        ((g.2.head?.map FileInfo.size).getD 0) * (g.2.length - 1))).sum := by
  have hall : ∀ g ∈ r.filter_duplicates.duplicates, 1 < g.2.length := by
    intro g hg
    have := (List.mem_filter.mp hg).2
    exact of_decide_eq_true this
  exact retained_sums r.filter_duplicates.duplicates hall

/-- C10: every `FileOperation` that `delete_file`, `move_file`,
`create_hardlink` or `create_symlink` returns satisfies: on failure it
reclaims `0` bytes and carries an error message; on success it carries no
error and reclaims exactly the size the metadata call read for the
processed file. -/
theorem claim_C10 :
    (∀ fs p dry fs' op, delete_file fs p dry = .ok (fs', op) →
      OpInv ((lookupSize fs.files p).getD 0) op) ∧
    (∀ fs p t dry fs' op, move_file fs p t dry = .ok (fs', op) →
      OpInv ((lookupSize fs.files p).getD 0) op) ∧
    (∀ fs k p dry fs' op, create_hardlink fs k p dry = .ok (fs', op) →
      OpInv ((lookupSize fs.files p).getD 0) op) ∧
    (∀ fs k p dry fs' op, create_symlink fs k p dry = .ok (fs', op) →
      OpInv ((lookupSize fs.files p).getD 0) op) := by
  refine ⟨?_, ?_, ?_, ?_⟩
  · intro fs p dry fs' op h
    obtain ⟨s, hs, _, hinv⟩ := delete_file_char h
    rw [hs]
    exact hinv
  · intro fs p t dry fs' op h
    obtain ⟨s, hs, _, hinv⟩ := move_file_char h
    rw [hs]
    exact hinv
  · intro fs k p dry fs' op h
    obtain ⟨s, hs, _, hinv⟩ := create_hardlink_char h
    rw [hs]
    exact hinv
  · intro fs k p dry fs' op h
    obtain ⟨s, hs, _, hinv⟩ := create_symlink_char h
    rw [hs]
    exact hinv

/-- A one-file state with `/a` of size 5, for evaluating the invariants. -/
def fsDel : FSState := ⟨[("/a".toList, 5)], [], [], [], [], []⟩

/-- C10's witness: the invariant evaluated on the operation the dry-run
delete of `/a` returns. -/
theorem claim_C10_witness :
    OpInv ((lookupSize fsDel.files "/a".toList).getD 0)
      ⟨"/a".toList, "delete", true, none, 5⟩ :=
  claim_C10.1 fsDel "/a".toList true fsDel
    ⟨"/a".toList, "delete", true, none, 5⟩ rfl

/-- C8: a live `Hardlink`/`Symlink` on a present duplicate removes the
duplicate first and then attempts the link at the duplicate's path: when
the removal itself fails nothing is removed and the outcome carries the
removal message; when the removal succeeds and the link creation fails,
the duplicate stays removed (no rollback) and the outcome carries the
link-creation message, which differs from the removal message. -/
theorem claim_C8 (fs : FSState) (keeper d : List Char) (s : Nat)
    (hm : lookupSize fs.files d = some s) :
    (fs.failRemove.contains d = true →
      create_hardlink fs keeper d false = .ok (fs, ⟨d, "hardlink", false,
        some "Failed to remove duplicate before hardlinking", 0⟩) ∧
      create_symlink fs keeper d false = .ok (fs, ⟨d, "symlink", false,
        some "Failed to remove duplicate before symlinking", 0⟩)) ∧
    (fs.failRemove.contains d = false → fs.failLink.contains d = true →
      create_hardlink fs keeper d false =
        .ok ({ fs with files := removeEntry fs.files d }, ⟨d, "hardlink", false,
          some "Failed to create hardlink", 0⟩) ∧
      create_symlink fs keeper d false =
        .ok ({ fs with files := removeEntry fs.files d }, ⟨d, "symlink", false,
          some "Failed to create symlink", 0⟩) ∧
      lookupSize (removeEntry fs.files d) d = none) ∧
    ("Failed to create hardlink" ≠
      "Failed to remove duplicate before hardlinking" ∧
     "Failed to create symlink" ≠
      "Failed to remove duplicate before symlinking") := by
  refine ⟨?_, ?_, by decide, by decide⟩
  · intro hfr
    constructor
    · unfold create_hardlink
      rw [hm]
      simp only [Bool.false_eq_true, if_false]
      rw [if_pos hfr]
    · unfold create_symlink
      rw [hm]
      simp only [Bool.false_eq_true, if_false]
      rw [if_pos hfr]
  · intro hfr hfl
    refine ⟨?_, ?_, ?_⟩
    · unfold create_hardlink
      rw [hm]
      simp only [Bool.false_eq_true, if_false]
      rw [if_neg (by rw [hfr]; exact Bool.false_ne_true)]
      cases ho : lookupSize (removeEntry fs.files d) keeper with
      | none => simp only [ho]
      | some osize =>
        simp only [ho]
        rw [if_pos hfl]
    · unfold create_symlink
      rw [hm]
      simp only [Bool.false_eq_true, if_false]
      rw [if_neg (by rw [hfr]; exact Bool.false_ne_true)]
      rw [if_pos hfl]
    · rw [lookupSize_removeEntry, if_pos rfl]

/-- A state whose link oracle fails at `/d`, for evaluating C8. -/
def fs8 : FSState :=
  ⟨[("/k".toList, 5), ("/d".toList, 5)], [], [], [], ["/d".toList], []⟩

/-- C8's witness: on `fs8`, the live hardlink of `/d` leaves the duplicate
removed and reports the link-creation failure. -/
theorem claim_C8_witness :
    create_hardlink fs8 "/k".toList "/d".toList false =
      .ok ({ fs8 with files := removeEntry fs8.files "/d".toList },
        ⟨"/d".toList, "hardlink", false, some "Failed to create hardlink", 0⟩) :=
  ((claim_C8 fs8 "/k".toList "/d".toList 5 rfl).2.1 rfl (by decide)).1

/-- Two same-hash files of different sizes, for exercising group-index
construction. -/
def fMismatchA : FileInfo := ⟨"/a".toList, 100, "h", 0⟩

/-- The second same-hash file, half the size of the first. -/
def fMismatchB : FileInfo := ⟨"/b".toList, 50, "h", 0⟩

/-- C2: group-index construction performs no size validation — adding two
files with the same hash but different sizes and filtering singletons
returns normally and retains the mismatched group; no fatal
internal-consistency error exists anywhere in `add_file` or
`filter_duplicates` (both are total and never signal). -/
theorem claim_C2 :
    ((DedupResult.new.add_file fMismatchA).add_file
        fMismatchB).filter_duplicates.duplicates =
      [("h", [fMismatchA, fMismatchB])] ∧
    fMismatchA.size ≠ fMismatchB.size := by
  exact ⟨rfl, by decide⟩

/-- The full configuration `main.rs` builds: defaults, then the size
bounds, then the lowercased allow- and deny-sets. -/
def mkScanner (min_size : Nat) (max_size : Option Nat)
    (inc exc : List String) : ScanConfig :=
  set_exclude_extensions
    (set_include_extensions
      { ScanConfig.default with min_size := min_size, max_size := max_size } inc)
    exc

theorem extGate_iff (incL excL : List String) (ext : Option String) :
    (match ext with
      | some e =>
        if incL ≠ [] ∧ e.toLower ∉ incL then false
        else if e.toLower ∈ excL then false else true
      | none => if incL ≠ [] then false else true) = true ↔
      ((incL ≠ [] → ∃ e, ext = some e ∧ e.toLower ∈ incL) ∧
        (∀ e, ext = some e → e.toLower ∉ excL)) := by
  cases ext with
  | none =>
    dsimp only
    by_cases h3 : incL ≠ []
    · rw [if_pos h3]
      refine iff_of_false (by simp) (fun hr => ?_)
      obtain ⟨e, he, _⟩ := hr.1 h3
      exact Option.noConfusion he
    · rw [if_neg h3]
      exact iff_of_true rfl
        ⟨fun hne => absurd hne h3, fun e he => Option.noConfusion he⟩
  | some e =>
    dsimp only
    by_cases h3 : incL ≠ [] ∧ e.toLower ∉ incL
    · rw [if_pos h3]
      refine iff_of_false (by simp) (fun hr => ?_)
      obtain ⟨e', he', hmem⟩ := hr.1 h3.1
      cases he'
      exact h3.2 hmem
    · rw [if_neg h3]
      by_cases h4 : e.toLower ∈ excL
      · rw [if_pos h4]
        exact iff_of_false (by simp) (fun hr => hr.2 e rfl h4)
      · rw [if_neg h4]
        push_neg at h3
        refine iff_of_true rfl ⟨fun hne => ⟨e, rfl, h3 hne⟩, fun e' he' => ?_⟩
        cases he'
        exact h4

theorem should_include_iff (mn : Nat) (mx : Option Nat) (incL excL : List String)
    (size : Nat) (ext : Option String) :
    should_include_file ⟨mn, mx, incL, excL⟩ size ext = true ↔
      (mn ≤ size ∧ (∀ m, mx = some m → size ≤ m) ∧
        (incL ≠ [] → ∃ e, ext = some e ∧ e.toLower ∈ incL) ∧
        (∀ e, ext = some e → e.toLower ∉ excL)) := by
  show (if size < mn then false
    else if (match mx with | some m => decide (size > m) | none => false) = true
      then false
    else match ext with
      | some e =>
        if incL ≠ [] ∧ e.toLower ∉ incL then false
        else if e.toLower ∈ excL then false else true
      | none => if incL ≠ [] then false else true) = true ↔ _
  by_cases h1 : size < mn
  · rw [if_pos h1]
    exact iff_of_false (by simp) (fun hr => absurd hr.1 (by omega))
  · rw [if_neg h1]
    cases mx with
    | none =>
      rw [if_neg (by simp)]
      rw [extGate_iff]
      constructor
      · exact fun ⟨hc, hd⟩ => ⟨by omega, fun m hm => Option.noConfusion hm, hc, hd⟩
      · exact fun ⟨_, _, hc, hd⟩ => ⟨hc, hd⟩
    | some m =>
      by_cases h2 : size > m
      · rw [if_pos (by simp [h2])]
        refine iff_of_false (by simp) (fun hr => ?_)
        have := hr.2.1 m rfl
        omega
      · rw [if_neg (by simp; omega)]
        rw [extGate_iff]
        constructor
        · exact fun ⟨hc, hd⟩ => ⟨by omega,
            fun m' hm' => by cases hm'; omega, hc, hd⟩
        · exact fun ⟨_, _, hc, hd⟩ => ⟨hc, hd⟩

theorem should_include_congr (cfg : ScanConfig) (size : Nat) {e1 e2 : String}
    (h : e1.toLower = e2.toLower) :
    should_include_file cfg size (some e1) = should_include_file cfg size (some e2) := by
  unfold should_include_file
  dsimp only
  rw [h]

/-- C5: a file qualifies iff its size is at least `min_size`, at most
`max_size` when one is set, its extension is in the allow-set whenever
that set is non-empty (an extension-less file is excluded whenever an
allow-set is active), and its extension is in no deny-set entry — the
deny-set excluding regardless of the allow-set — with all extension
comparisons case-insensitive (only the lowercase form of the extension
matters). -/
theorem claim_C5 (min_size : Nat) (max_size : Option Nat) (inc exc : List String)
    (size : Nat) (ext : Option String) :
    (should_include_file (mkScanner min_size max_size inc exc) size ext = true ↔
      (min_size ≤ size ∧
        (∀ m, max_size = some m → size ≤ m) ∧
        (inc ≠ [] → ∃ e, ext = some e ∧ ∃ r ∈ inc, r.toLower = e.toLower) ∧
        (∀ e, ext = some e → ¬∃ r ∈ exc, r.toLower = e.toLower))) ∧
    (∀ e1 e2, e1.toLower = e2.toLower →
      should_include_file (mkScanner min_size max_size inc exc) size (some e1) =
        should_include_file (mkScanner min_size max_size inc exc) size (some e2)) := by
  have hcfg : mkScanner min_size max_size inc exc =
      ⟨min_size, max_size, inc.map String.toLower, exc.map String.toLower⟩ := rfl
  constructor
  · rw [hcfg, should_include_iff]
    constructor
    · rintro ⟨ha, hb, hc, hd⟩
      refine ⟨ha, hb, fun hne => ?_, fun e he hcon => ?_⟩
      · obtain ⟨e, he, hmem⟩ := hc (by
          intro hnil
          exact hne (List.map_eq_nil_iff.mp hnil))
        obtain ⟨r, hr, hre⟩ := List.mem_map.mp hmem
        exact ⟨e, he, r, hr, hre⟩
      · obtain ⟨r, hr, hre⟩ := hcon
        exact hd e he (List.mem_map.mpr ⟨r, hr, hre⟩)
    · rintro ⟨ha, hb, hc, hd⟩
      refine ⟨ha, hb, fun hne => ?_, fun e he hmem => ?_⟩
      · obtain ⟨e, he, r, hr, hre⟩ := hc (by
          intro hnil
          exact hne (by rw [hnil]; rfl))
        exact ⟨e, he, List.mem_map.mpr ⟨r, hr, hre⟩⟩
      · obtain ⟨r, hr, hre⟩ := List.mem_map.mp hmem
        exact hd e he ⟨r, hr, hre⟩
  · intro e1 e2 h12
    exact should_include_congr _ _ h12

/-- A target directory already holding `a.txt`. -/
def fsW1 : FSState := ⟨[("/t/a.txt".toList, 5)], ["/t".toList], [], [], [], []⟩

/-- A target directory already holding `a.txt` and `a_1.txt`. -/
def fsW2 : FSState :=
  ⟨[("/t/a.txt".toList, 5), ("/t/a_1.txt".toList, 5)], ["/t".toList], [], [], [], []⟩

/-- A source file `/s/a.txt` next to a target directory holding `a.txt`. -/
def fsMv : FSState :=
  ⟨[("/t/a.txt".toList, 5), ("/s/a.txt".toList, 5)], ["/t".toList], [], [], [], []⟩

/-- C6: the move destination is the duplicate's file name joined to the
target directory when that path is free, and otherwise the name with the
first available integer suffix starting at 1 before the extension; in
particular moving `a.txt` into a target holding `a.txt` lands on
`a_1.txt`, a second collision lands on `a_2.txt`, and a live `move_file`
deposits the duplicate at the suffixed destination. -/
theorem claim_C6 :
    (∀ fs dir filename,
      (pathExists fs (joinPath dir filename) = false →
        findTarget fs dir filename = joinPath dir filename) ∧
      (pathExists fs (joinPath dir filename) = true →
        ∃ k, 1 ≤ k ∧
          findTarget fs dir filename =
            candPath dir (fileStemExt filename).1 (fileStemExt filename).2 k ∧
          pathExists fs (findTarget fs dir filename) = false ∧
          ∀ j, 1 ≤ j → j < k →
            pathExists fs (candPath dir (fileStemExt filename).1
              (fileStemExt filename).2 j) = true)) ∧
    findTarget fsW1 "/t".toList "a.txt".toList = "/t/a_1.txt".toList ∧
    findTarget fsW2 "/t".toList "a.txt".toList = "/t/a_2.txt".toList ∧
    (∃ fs' op, move_file fsMv "/s/a.txt".toList "/t".toList false = .ok (fs', op) ∧
      lookupSize fs'.files "/t/a_1.txt".toList = some 5 ∧
      lookupSize fs'.files "/s/a.txt".toList = none ∧
      op.success = true) := by
  refine ⟨fun fs dir filename => ⟨findTarget_of_free, fun htaken => ?_⟩,
    by decide, by decide, ⟨_, _, rfl, by decide, by decide, rfl⟩⟩
  rcases findTarget_spec fs dir filename with h1 | ⟨_, k, hk, heq, hall⟩
  · have hfree := findTarget_free fs dir filename
    rw [h1, htaken] at hfree
    exact absurd hfree (by simp)
  · exact ⟨k, hk, heq, findTarget_free fs dir filename, hall⟩

/-- C4: the first (keeper) member of a group is never touched — after any
action run that returns, the keeper's file entry is unchanged and no
recorded operation names the keeper's path — and a live `Delete` over a
group whose `n - 1` non-keeper members all have size `s` removes exactly
those members, keeps the keeper, processes `n - 1` files and reports
`s * (n - 1)` reclaimed bytes. -/
theorem claim_C4 :
    (∀ (a : DedupAction) (dry : Bool) (fs fs' : FSState) (k : FileInfo)
        (rest : List FileInfo) (res : ActionResult),
      perform_action fs (k :: rest) a dry = .ok (fs', res) →
      k.path ∉ rest.map FileInfo.path →
      (lookupSize fs.files k.path).isSome = true →
      lookupSize fs'.files k.path = lookupSize fs.files k.path ∧
        ∀ op ∈ res.operations, op.path ≠ k.path) ∧
    (∀ (fs : FSState) (k : FileInfo) (rest : List FileInfo) (s : Nat),
      (rest.map FileInfo.path).Nodup →
      k.path ∉ rest.map FileInfo.path →
      (∀ d ∈ rest, lookupSize fs.files d.path = some s) →
      (∀ d ∈ rest, fs.failRemove.contains d.path = false) →
      ∃ fs' res,
        perform_action fs (k :: rest) DedupAction.Delete false = .ok (fs', res) ∧
        (∀ p ∈ rest.map FileInfo.path, lookupSize fs'.files p = none) ∧
        lookupSize fs'.files k.path = lookupSize fs.files k.path ∧
        res.total_files_processed = rest.length ∧
        res.total_space_saved = s * rest.length) := by
  constructor
  · intro a dry fs fs' k rest res hrun hknotin hksome
    have hrun' : runAll k.path a dry fs rest ActionResult.new = .ok (fs', res) := hrun
    obtain ⟨hpres, hops⟩ :=
      runAll_keeper k.path a dry rest fs ActionResult.new fs' res hrun'
        k.path hknotin hksome
    refine ⟨hpres, fun op hop => ?_⟩
    rcases hops op hop with hmem | hmem
    · exact absurd hmem (by simp [ActionResult.new])
    · intro hcontra
      exact hknotin (hcontra ▸ hmem)
  · intro fs k rest s hnd hknotin hsz hfr
    obtain ⟨fs', res, hrun, hpt, htfp, htss, _⟩ :=
      runAll_delete_live k.path rest fs ActionResult.new hnd
        (fun d hd => by rw [hsz d hd]; rfl) hfr
    refine ⟨fs', res, hrun, ?_, ?_, ?_, ?_⟩
    · intro p hp
      rw [hpt p, if_pos hp]
    · rw [hpt k.path, if_neg hknotin]
    · rw [htfp]
      show ActionResult.new.total_files_processed + rest.length = _
      rw [show ActionResult.new.total_files_processed = 0 from rfl]
      omega
    · rw [htss]
      have hmap : rest.map (fun d => (lookupSize fs.files d.path).getD 0) =
          rest.map (fun _ => s) := by
        apply List.map_congr_left
        intro d hd
        rw [hsz d hd]
        rfl
      rw [hmap, sum_map_const]
      show ActionResult.new.total_space_saved + s * rest.length = _
      rw [show ActionResult.new.total_space_saved = 0 from rfl]
      omega

/-- A keeper `/k` with duplicates `/d1`, `/d2`, all of size 7. -/
def fsC4 : FSState :=
  ⟨[("/k".toList, 7), ("/d1".toList, 7), ("/d2".toList, 7)], [], [], [], [], []⟩

/-- C4's witness: the live delete of the two duplicates of `/k`. -/
theorem claim_C4_witness :
    ∃ fs' res,
      perform_action fsC4 [⟨"/k".toList, 7, "h", 0⟩, ⟨"/d1".toList, 7, "h", 0⟩,
        ⟨"/d2".toList, 7, "h", 0⟩] DedupAction.Delete false = .ok (fs', res) ∧
      (∀ p ∈ [⟨"/d1".toList, 7, "h", 0⟩,
        (⟨"/d2".toList, 7, "h", 0⟩ : FileInfo)].map FileInfo.path,
        lookupSize fs'.files p = none) ∧
      lookupSize fs'.files "/k".toList = lookupSize fsC4.files "/k".toList ∧
      res.total_files_processed = 2 ∧
      res.total_space_saved = 7 * 2 :=
  claim_C4.2 fsC4 ⟨"/k".toList, 7, "h", 0⟩
    [⟨"/d1".toList, 7, "h", 0⟩, ⟨"/d2".toList, 7, "h", 0⟩] 7
    (by decide) (by decide) (by decide) (by decide)

/-- A group whose single duplicate `/d` is present but undeletable. -/
def fsC3 : FSState :=
  ⟨[("/k".toList, 5), ("/d".toList, 5)], [], ["/d".toList], [], [], []⟩

/-- The keeper of the C3 counterexample group. -/
def kC3 : FileInfo := ⟨"/k".toList, 5, "h", 0⟩

/-- The undeletable duplicate of the C3 counterexample group. -/
def dC3 : FileInfo := ⟨"/d".toList, 5, "h", 0⟩

/-- C3's counterexample: on the same input, the dry-run Delete reports
(success, 5 bytes) for `/d` while the live run's deletion fails and
reports (failure, 0 bytes) — dry-run and live outcome values differ, so
dry-run does not always produce "exactly the same reclaimed-bytes and
success values" as the live run. -/
theorem claim_C3_counterexample :
    perform_action fsC3 [kC3, dC3] DedupAction.Delete true =
      .ok (fsC3, ⟨[⟨"/d".toList, "delete", true, none, 5⟩], 5, 1⟩) ∧
    perform_action fsC3 [kC3, dC3] DedupAction.Delete false =
      .ok (fsC3, ⟨[⟨"/d".toList, "delete", false, some "Failed to delete", 0⟩],
        0, 1⟩) ∧
    ((true, (5 : Nat)) ≠ (false, (0 : Nat))) := by
  exact ⟨rfl, rfl, by decide⟩

/-- C3 (amended): a dry-run mutates nothing and reports success with the
member's file size for every processed member; whenever every live
mutation would succeed (clean oracles), the live run reports exactly the
same outcome values — the two runs differ only when a live mutation
fails, which dry-run cannot predict. -/
theorem claim_C3_amended (a : DedupAction) (fs : FSState) (k : FileInfo)
    (rest : List FileInfo) (ha : a ≠ DedupAction.List)
    (hnd : (rest.map FileInfo.path).Nodup)
    (hknotin : k.path ∉ rest.map FileInfo.path)
    (hpres : ∀ d ∈ rest, (lookupSize fs.files d.path).isSome = true)
    (hclean : ∀ d ∈ rest, cleanStep fs k.path a d.path) :
    ∃ resD fsL resL,
      perform_action fs (k :: rest) a true = .ok (fs, resD) ∧
      perform_action fs (k :: rest) a false = .ok (fsL, resL) ∧
      resD.operations.map opProj = rest.map (cleanOutcome fs) ∧
      resL.operations.map opProj = rest.map (cleanOutcome fs) := by
  obtain ⟨resD, hrunD, hprojD⟩ := runAll_dry ha k.path rest fs ActionResult.new hpres
  obtain ⟨fsL, resL, hrunL, hprojL⟩ :=
    runAll_live ha k.path rest fs ActionResult.new hnd hknotin hpres hclean
  refine ⟨resD, fsL, resL, hrunD, hrunL, ?_, ?_⟩
  · rw [hprojD]
    show (ActionResult.new.operations.map opProj) ++ _ = _
    rw [show ActionResult.new.operations = [] from rfl]
    rfl
  · rw [hprojL]
    show (ActionResult.new.operations.map opProj) ++ _ = _
    rw [show ActionResult.new.operations = [] from rfl]
    rfl

/-- A clean two-duplicate group for evaluating the amended C3. -/
def fsC3W : FSState :=
  ⟨[("/k".toList, 5), ("/d1".toList, 5), ("/d2".toList, 3)], [], [], [], [], []⟩

/-- C3's witness: on a clean state, the dry and live Delete runs produce
the same outcome values. -/
theorem claim_C3_witness :
    ∃ resD fsL resL,
      perform_action fsC3W [⟨"/k".toList, 5, "h", 0⟩, ⟨"/d1".toList, 5, "h", 0⟩,
        ⟨"/d2".toList, 3, "h", 0⟩] DedupAction.Delete true = .ok (fsC3W, resD) ∧
      perform_action fsC3W [⟨"/k".toList, 5, "h", 0⟩, ⟨"/d1".toList, 5, "h", 0⟩,
        ⟨"/d2".toList, 3, "h", 0⟩] DedupAction.Delete false = .ok (fsL, resL) ∧
      resD.operations.map opProj =
        [⟨"/d1".toList, 5, "h", 0⟩, (⟨"/d2".toList, 3, "h", 0⟩ : FileInfo)].map
          (cleanOutcome fsC3W) ∧
      resL.operations.map opProj =
        [⟨"/d1".toList, 5, "h", 0⟩, (⟨"/d2".toList, 3, "h", 0⟩ : FileInfo)].map
          (cleanOutcome fsC3W) :=
  claim_C3_amended DedupAction.Delete fsC3W ⟨"/k".toList, 5, "h", 0⟩
    [⟨"/d1".toList, 5, "h", 0⟩, ⟨"/d2".toList, 3, "h", 0⟩]
    (by decide) (by decide) (by decide) (by decide)
    (by
      intro d hd
      rcases List.mem_cons.mp hd with rfl | hd
      · exact rfl
      rcases List.mem_cons.mp hd with rfl | hd
      · exact rfl
      cases hd)

/-- A batch state in which `/d2` (a listed group member) has no file
behind it, while `/d3` and the whole second group are processable. -/
def fsC1 : FSState :=
  ⟨[("/k1".toList, 5), ("/d3".toList, 5), ("/k2".toList, 4), ("/d4".toList, 4)],
    [], [], [], [], []⟩

/-- Two retained groups; the first group's member `/d2` is missing on
disk. -/
def scanC1 : DedupResult :=
  ⟨[("h1", [⟨"/k1".toList, 5, "h1", 0⟩, ⟨"/d2".toList, 5, "h1", 0⟩,
      ⟨"/d3".toList, 5, "h1", 0⟩]),
    ("h2", [⟨"/k2".toList, 4, "h2", 0⟩, ⟨"/d4".toList, 4, "h2", 0⟩])], 5, 23⟩

/-- C1's counterexample: when reading `/d2`'s metadata fails, the whole
batch aborts with an error — no ActionOutcome is recorded for `/d2`, and
the still-processable `/d3` of the same group and the entire later group
are never processed, refuting "the action engine still processes every
remaining non-keeper member ... rather than aborting the batch" for this
failure. -/
theorem claim_C1_counterexample :
    perform_deduplication fsC1 scanC1 DedupAction.Delete false =
      .error "Failed to get metadata" ∧
    lookupSize fsC1.files "/d3".toList = some 5 ∧
    lookupSize fsC1.files "/d4".toList = some 4 := by
  exact ⟨rfl, rfl, rfl⟩

/-- C1 (amended): when every processed member's metadata is readable (and,
for Move, the target directory can be created), the batch always
completes: every non-keeper member of every retained group yields exactly
one outcome — `total_files_processed` is the sum of `group_size - 1` —
and any member whose delete/rename/link step fails is recorded with
`success = false` and an error message while processing continues. A
metadata-read failure instead aborts the batch (see the counterexample). -/
theorem claim_C1_amended (a : DedupAction) (dry : Bool) (fs : FSState)
    (scan : DedupResult) (ha : a ≠ DedupAction.List)
    (hnd : (retainedMembers scan.duplicates).Nodup)
    (hpres : ∀ p ∈ retainedMembers scan.duplicates,
      (lookupSize fs.files p).isSome = true)
    (hcd : ∀ t, a = DedupAction.Move t → fs.failCreateDir.contains t = false) :
    ∃ fs' res, perform_deduplication fs scan a dry = .ok (fs', res) ∧
      res.total_files_processed = retainedCount scan.duplicates ∧
      ∀ op ∈ res.operations, op.success = false → op.error.isSome = true := by
  have hpd : perform_deduplication fs scan a dry =
      runGroups a dry fs scan.duplicates ActionResult.new := by
    cases a with
    | List => exact absurd rfl ha
    | Delete => rfl
    | Move t => rfl
    | Hardlink => rfl
    | Symlink => rfl
  rw [hpd]
  obtain ⟨fs', res, hrun, htfp, hops, _, _⟩ :=
    runGroups_ok ha dry scan.duplicates fs ActionResult.new hnd hpres hcd
  refine ⟨fs', res, hrun, ?_, fun op hop => ?_⟩
  · rw [htfp]
    show ActionResult.new.total_files_processed + _ = _
    rw [show ActionResult.new.total_files_processed = 0 from rfl]
    omega
  · rcases hops op hop with hmem | hinv
    · exact absurd hmem (by simp [ActionResult.new])
    · exact hinv

/-- A two-group batch in which `/d1`'s removal fails but everything is
readable. -/
def fsC1W : FSState :=
  ⟨[("/k1".toList, 5), ("/d1".toList, 5), ("/k2".toList, 4), ("/d2".toList, 4)],
    [], ["/d1".toList], [], [], []⟩

/-- The two retained groups of the C1 witness batch. -/
def scanC1W : DedupResult :=
  ⟨[("h1", [⟨"/k1".toList, 5, "h1", 0⟩, ⟨"/d1".toList, 5, "h1", 0⟩]),
    ("h2", [⟨"/k2".toList, 4, "h2", 0⟩, ⟨"/d2".toList, 4, "h2", 0⟩])], 4, 18⟩

/-- C1's witness: with `/d1` undeletable but readable, the live Delete
batch still completes, processing both non-keeper members. -/
theorem claim_C1_witness :
    ∃ fs' res,
      perform_deduplication fsC1W scanC1W DedupAction.Delete false =
        .ok (fs', res) ∧
      res.total_files_processed = retainedCount scanC1W.duplicates ∧
      ∀ op ∈ res.operations, op.success = false → op.error.isSome = true :=
  claim_C1_amended DedupAction.Delete false fsC1W scanC1W (by decide)
    (by decide) (by decide)
    (fun t ht => DedupAction.noConfusion ht)
